import Mathlib

/-!
Verification development for the recipe-search IR pipeline: the inverted-index
builder (`indexer/run.py`, class `RobustRecipeIndexer`) and the TSV search
engine (`search_cli/run.py`, class `RobustRecipeSearcher`).

Modelling conventions:
* Python strings are Lean `String`s; all string manipulation is implemented
  over `List Char` with structural recursion so that concrete instances reduce.
* Python floats are modelled as exact rationals (`ℚ`); `float` data read from
  index files (idf values) is rational data.
* Python dicts are association lists that keep insertion order; updating an
  existing key rewrites it in place, a new key is appended (`dictInsert`),
  matching CPython dict semantics.  `defaultdict` accesses that create entries
  are modelled explicitly (`ensureKey`, `appendPosting`).
* Python's stable `list.sort` is modelled by a stable insertion sort
  (`stableSort`); stable sorts agree on every comparator and input.
* File I/O is modelled by passing file contents (`Option (List String)`,
  `none` = missing file) and the normalized-recipe corpus as an association
  list from document id to record.
-/

namespace Recipes

/-! ## Association-list dictionaries (CPython dict semantics) -/

/-- Look up a key in an insertion-ordered association list (`d.get(k)` /
`d[k]` on a Python dict). -/
def alistGet? {β : Type} : List (String × β) → String → Option β
  | [], _ => none
  | (k, v) :: rest, t => if k = t then some v else alistGet? rest t

/-- `d[k] = v` on a Python dict: overwrite in place if the key exists,
otherwise append (insertion order preserved). -/
def dictInsert {β : Type} : List (String × β) → String → β → List (String × β)
  | [], t, v => [(t, v)]
  | (k, w) :: rest, t, v =>
    if k = t then (k, v) :: rest else (k, w) :: dictInsert rest t v

/-! ## String primitives (implemented over `List Char`) -/

/-- ASCII letter test, the `[a-zA-Z]` character class. -/
def isAsciiLetter (c : Char) : Bool :=
  (('a' ≤ c) && (c ≤ 'z')) || (('A' ≤ c) && (c ≤ 'Z'))

/-- ASCII digit test, the `\d` character class. -/
def isDigitChar (c : Char) : Bool := ('0' ≤ c) && (c ≤ '9')

/-- Python regex word character `\w` (ASCII part): letters, digits, underscore. -/
def isWordChar (c : Char) : Bool := isAsciiLetter c || isDigitChar c || c = '_'

/-- Python `\s` / `str.strip` whitespace (ASCII part). -/
def isSpaceChar (c : Char) : Bool :=
  c = ' ' || c = '\t' || c = '\n' || c = '\r' || c = '\x0b' || c = '\x0c'

/-- Characters matched by `[a-zA-Z0-9#]` inside an HTML entity. -/
def isEntityChar (c : Char) : Bool := isAsciiLetter c || isDigitChar c || c = '#'

/-- Numeric value of a digit run. -/
def digitsToNat (ds : List Char) : Nat :=
  ds.foldl (fun n c => n * 10 + (c.toNat - '0'.toNat)) 0

/-- Strip leading and trailing whitespace from a char list (`str.strip()`). -/
def stripCharsL (l : List Char) : List Char :=
  ((l.dropWhile isSpaceChar).reverse.dropWhile isSpaceChar).reverse

/-- Strip leading and trailing whitespace from a string (`str.strip()`). -/
def stripString (s : String) : String := String.mk (stripCharsL s.toList)

/-- Lowercase a string (`str.lower()`, ASCII-faithful). -/
def lowerStr (s : String) : String := String.mk (s.toList.map Char.toLower)

/-- Split a char list at tab characters, `str.split('\t')`. -/
def splitTabAux : List Char → List Char → List (List Char)
  | [], acc => [acc.reverse]
  | c :: rest, acc =>
    if c = '\t' then acc.reverse :: splitTabAux rest []
    else splitTabAux rest (c :: acc)

/-- Python `line.split('\t')`. -/
def splitTab (s : String) : List String :=
  (splitTabAux s.toList []).map String.mk

/-- Lexicographic (code-point) strict order on strings, Python `<`. -/
def charListLt : List Char → List Char → Bool
  | [], [] => false
  | [], _ :: _ => true
  | _ :: _, [] => false
  | a :: as, b :: bs =>
    if a.val < b.val then true
    else if b.val < a.val then false
    else charListLt as bs

/-- Python string comparison `a < b` by code points. -/
def strLt (a b : String) : Bool := charListLt a.toList b.toList

/-- Prefix test on char lists. -/
def isPrefixL : List Char → List Char → Bool
  | [], _ => true
  | _ :: _, [] => false
  | a :: as, b :: bs => a = b && isPrefixL as bs

/-- Infix test on char lists. -/
def isInfixL (needle : List Char) : List Char → Bool
  | [] => isPrefixL needle []
  | c :: rest => isPrefixL needle (c :: rest) || isInfixL needle rest

/-- Substring containment, Python `needle in haystack` on strings. -/
def isSubstr (needle hay : String) : Bool :=
  isInfixL needle.toList hay.toList

/-! ## Stable sorting (Python `list.sort` is stable) -/

/-- Insert `x` before the first element `y` with `le x y`; inserting from the
right this yields a stable sort. -/
def sInsert {α : Type} (le : α → α → Bool) (x : α) : List α → List α
  | [] => [x]
  | y :: ys => if le x y then x :: y :: ys else y :: sInsert le x ys

/-- Stable insertion sort: agrees with CPython's stable `list.sort` for every
total comparator. -/
def stableSort {α : Type} (le : α → α → Bool) (l : List α) : List α :=
  l.foldr (sInsert le) []

/-! ## Tokenizer (`RobustRecipeIndexer.tokenize` = `RobustRecipeSearcher.tokenize`) -/

/-- One pass of `re.sub(r'&[a-zA-Z0-9#]+;', ' ', text)`: at each `&`, if a
non-empty run of `[a-zA-Z0-9#]` follows and ends at `;`, the whole entity is
replaced by one space.  Fuel-driven so that the kernel can evaluate it; the
fuel is always instantiated with the list length, which suffices. -/
def stripEntitiesF : Nat → List Char → List Char
  | 0, l => l
  | _ + 1, [] => []
  | fuel + 1, c :: rest =>
    if c = '&' then
      let run := rest.takeWhile isEntityChar
      let rest' := rest.dropWhile isEntityChar
      match rest' with
      | ';' :: tail =>
        if run.isEmpty then c :: stripEntitiesF fuel rest
        else ' ' :: stripEntitiesF fuel tail
      | _ => c :: stripEntitiesF fuel rest
    else c :: stripEntitiesF fuel rest

/-- `re.sub(r'\s+', ' ', text)`: collapse every whitespace run to one space. -/
def collapseWsF : Nat → List Char → List Char
  | 0, l => l
  | _ + 1, [] => []
  | fuel + 1, c :: rest =>
    if isSpaceChar c then ' ' :: collapseWsF fuel (rest.dropWhile isSpaceChar)
    else c :: collapseWsF fuel rest

/-- `re.findall(r'\b[a-zA-Z]+\b', text)`: maximal ASCII-letter runs whose
neighbours are not word characters (otherwise the `\b` boundary fails, also
after backtracking, since every interior position is flanked by letters). -/
def findWordsF (prevIsWord : Bool) : Nat → List Char → List (List Char)
  | 0, _ => []
  | _ + 1, [] => []
  | fuel + 1, c :: rest =>
    if isAsciiLetter c then
      if prevIsWord then findWordsF true fuel rest
      else
        let run := c :: rest.takeWhile isAsciiLetter
        let rest' := rest.dropWhile isAsciiLetter
        let ok : Bool := match rest' with
          | [] => true
          | d :: _ => !isWordChar d
        (if ok then [run] else []) ++ findWordsF true fuel rest'
    else
      findWordsF (isWordChar c) fuel rest

/-- The built-in stopword set of `tokenize` (duplicates in the source literal
collapse; membership is what matters). -/
def stopwords : List String :=
  ["the", "a", "an", "and", "or", "but", "in", "on", "at", "to", "for", "of", "with", "by",
   "is", "are", "was", "were", "be", "been", "being", "have", "has", "had", "having",
   "do", "does", "did", "doing", "will", "would", "could", "should", "may", "might", "must",
   "can", "this", "that", "these", "those", "i", "you", "he", "she", "it", "we", "they",
   "me", "him", "her", "us", "them", "my", "your", "his", "its", "our", "their",
   "am", "shall", "ought", "need", "dare", "used", "get", "got", "getting", "go", "went",
   "gone", "going", "come", "came", "coming", "see", "saw", "seen", "seeing", "know", "knew",
   "known", "knowing", "think", "thought", "thinking", "take", "took", "taken", "taking",
   "give", "gave", "given", "giving", "make", "made", "making", "find", "found", "finding",
   "tell", "told", "telling", "ask", "asked", "asking", "work", "worked", "working",
   "seem", "seemed", "seeming", "feel", "felt", "feeling", "try", "tried", "trying",
   "leave", "left", "leaving", "call", "called", "calling", "move", "moved", "moving",
   "turn", "turned", "turning", "start", "started", "starting", "show", "showed", "showing",
   "hear", "heard", "hearing", "play", "played", "playing", "run", "ran", "running",
   "open", "opened", "opening", "close", "closed", "closing", "help", "helped", "helping",
   "keep", "kept", "keeping", "let", "letting", "put", "putting", "set", "setting",
   "bring", "brought", "bringing", "begin", "began", "begun", "beginning", "sit", "sat",
   "sitting", "stand", "stood", "standing", "lose", "lost", "losing", "pay", "paid", "paying",
   "meet", "met", "meeting", "include", "included", "including", "continue", "continued",
   "continuing", "follow", "followed", "following", "stop", "stopped",
   "stopping", "create", "created", "creating", "speak", "spoke", "spoken", "speaking",
   "read", "reading", "allow", "allowed", "allowing", "add", "added", "adding", "spend",
   "spent", "spending", "grow", "grew", "grown", "growing",
   "walk", "walked", "walking", "win", "won", "winning", "offer", "offered", "offering",
   "remember", "remembered", "remembering", "love", "loved", "loving", "consider", "considered",
   "considering", "appear", "appeared", "appearing", "buy", "bought", "buying", "wait",
   "waited", "waiting", "serve", "served", "serving", "die", "died", "dying", "send",
   "sent", "sending", "expect", "expected", "expecting", "build", "built", "building",
   "stay", "stayed", "staying", "fall", "fell", "fallen", "falling", "cut", "cutting",
   "reach", "reached", "reaching", "kill", "killed", "killing", "remain", "remained",
   "remaining", "suggest", "suggested", "suggesting", "raise", "raised", "raising",
   "pass", "passed", "passing", "sell", "sold", "selling", "require", "required",
   "requiring", "report", "reported", "reporting", "decide", "decided", "deciding",
   "pull", "pulled", "pulling", "break", "broke", "broken", "breaking", "rise", "rose",
   "risen", "rising", "throw", "threw", "thrown", "throwing",
   "drop", "dropped", "dropping", "catch", "caught", "catching", "choose", "chose",
   "chosen", "choosing", "deal", "dealt", "dealing", "prove", "proved", "proving",
   "hold", "held", "holding", "write", "wrote", "written", "writing", "provide",
   "provided", "providing"]

/-- `tokenize(text)`: strip HTML entities, collapse whitespace, strip, extract
lowercase letter runs, drop stopwords and length-1 tokens.  This is the one
tokenizer shared verbatim by the indexer and the searcher. -/
def tokenize (text : String) : List String :=
  if text = "" then []
  else
    let cs := stripCharsL (collapseWsF text.toList.length
      (stripEntitiesF text.toList.length text.toList))
    if cs.isEmpty then []
    else
      let low := cs.map Char.toLower
      let words := (findWordsF false low.length low).map String.mk
      words.filter (fun w => !stopwords.contains w && w.length > 1)

/-! ## Index builder (`RobustRecipeIndexer`) -/

/-- Keys of `collections.Counter(tokens)` in iteration order: distinct tokens
in first-occurrence order. -/
def counterKeysAux (seen : List String) : List String → List String
  | [] => []
  | x :: xs =>
    if seen.contains x then counterKeysAux seen xs
    else x :: counterKeysAux (seen ++ [x]) xs

/-- Distinct tokens of a field in first-occurrence order. -/
def counterKeys (tokens : List String) : List String := counterKeysAux [] tokens

/-- The `term -> df` accumulation step of `_index_field`: `if term not in
self.terms: self.terms[term] = 0` followed by `self.terms[term] += 1`. -/
def bumpDf : List (String × Nat) → String → List (String × Nat)
  | [], t => [(t, 1)]
  | (k, v) :: rest, t =>
    if k = t then (k, v + 1) :: rest else (k, v) :: bumpDf rest t

/-- Append one value to the list stored under a key of a
`defaultdict(list)` (`self.postings[term].append(p)`). -/
def appendTo {β : Type} : List (String × List β) → String → β → List (String × List β)
  | [], t, p => [(t, [p])]
  | (k, l) :: rest, t, p =>
    if k = t then (k, l ++ [p]) :: rest else (k, l) :: appendTo rest t p

/-- A bare `defaultdict(list)` access `d[k]` that creates an empty entry when
the key is absent. -/
def ensureKey {β : Type} (m : List (String × List β)) (t : String) :
    List (String × List β) :=
  if (alistGet? m t).isSome then m else m ++ [(t, [])]

/-- Document metadata recorded by the index builder. -/
structure BDocMeta where
  url : String
  title : String
  len_title : Nat
  len_ing : Nat
  len_instr : Nat
deriving DecidableEq, Repr

/-- A posting as the index builder stores it: `(field, doc_id, tf)`. -/
structure BPosting where
  field : String
  docId : String
  tf : Nat
deriving DecidableEq, Repr

/-- The mutable state of `RobustRecipeIndexer` during `build_index`. -/
structure BuildState where
  terms : List (String × Nat)
  postings : List (String × List BPosting)
  docmeta : List (String × BDocMeta)
  processingErrors : Nat
  emptyDocs : Nat
deriving DecidableEq, Repr

/-- The empty builder state. -/
def initState : BuildState := ⟨[], [], [], 0, 0⟩

/-- Document frequency recorded for a term (0 when the term is absent,
matching `term not in self.terms`). -/
def dfOf (st : BuildState) (t : String) : Nat := (alistGet? st.terms t).getD 0

/-- Postings list recorded for a term. -/
def postingsOfB (st : BuildState) (t : String) : List BPosting :=
  (alistGet? st.postings t).getD []

/-- `_index_field(doc_id, field, tokens)`: for each distinct term of the field
(in `Counter` order) increment its document frequency and append one posting
carrying the in-field term frequency. -/
def indexField (st : BuildState) (docId field : String) (tokens : List String) :
    BuildState :=
  if tokens.isEmpty then st
  else
    (counterKeys tokens).foldl
      (fun st term =>
        { st with
          terms := bumpDf st.terms term
          postings := appendTo st.postings term ⟨field, docId, tokens.count term⟩ })
      st

/-- A normalized recipe record as consumed by `_index_recipe` (one JSONL
line of the parser output). -/
structure RecipeRecord where
  id : String
  url : String
  title : String
  ingredients : List String
  instructions : List String
deriving DecidableEq, Repr

/-- `_index_recipe`: skip records without id (counted as errors), tokenize the
three fields, skip documents whose three tokenizations are all empty (counted
as empty), otherwise store metadata and index each field. -/
def indexRecipe (st : BuildState) (r : RecipeRecord) : BuildState :=
  if r.id = "" then { st with processingErrors := st.processingErrors + 1 }
  else
    let title := stripString r.title
    let ings := String.intercalate (" ") (r.ingredients.filter (fun s => s ≠ ""))
    let instrs := String.intercalate (" ") (r.instructions.filter (fun s => s ≠ ""))
    let tT := tokenize title
    let tI := tokenize ings
    let tS := tokenize instrs
    if tT.length + tI.length + tS.length = 0 then
      { st with emptyDocs := st.emptyDocs + 1 }
    else
      let st :=
        { st with
          docmeta := dictInsert st.docmeta r.id
            ⟨r.url, title, tT.length, tI.length, tS.length⟩ }
      let st := indexField st r.id ("title") tT
      let st := indexField st r.id ("ingredients") tI
      indexField st r.id ("instructions") tS

/-- `build_index` over an already-parsed record stream (JSON decoding errors
are dropped lines and are not modelled beyond the error counter). -/
def buildIndex (records : List RecipeRecord) : BuildState :=
  records.foldl indexRecipe initState

/-- `total_docs = len(self.doc_metadata)` after the pass. -/
def totalDocsB (st : BuildState) : Nat := st.docmeta.length

/-! ### Dictionary lemmas for the builder state -/

theorem alistGet?_bumpDf_self (d : List (String × Nat)) (t : String) :
    alistGet? (bumpDf d t) t = some ((alistGet? d t).getD 0 + 1) := by
  induction d with
  | nil => simp [bumpDf, alistGet?]
  | cons hd tl ih =>
    obtain ⟨k, v⟩ := hd
    by_cases hk : k = t
    · subst hk
      simp [bumpDf, alistGet?]
    · simp [bumpDf, alistGet?, hk, ih]

theorem alistGet?_bumpDf_ne (d : List (String × Nat)) (t t' : String) (h : t' ≠ t) :
    alistGet? (bumpDf d t) t' = alistGet? d t' := by
  induction d with
  | nil => simp [bumpDf, alistGet?, Ne.symm h]
  | cons hd tl ih =>
    obtain ⟨k, v⟩ := hd
    by_cases hk : k = t
    · subst hk
      simp [bumpDf, alistGet?, Ne.symm h]
    · simp [bumpDf, alistGet?, hk, ih]

theorem alistGet?_appendTo_self {β : Type} (m : List (String × List β)) (t : String) (p : β) :
    alistGet? (appendTo m t p) t = some ((alistGet? m t).getD [] ++ [p]) := by
  induction m with
  | nil => simp [appendTo, alistGet?]
  | cons hd tl ih =>
    obtain ⟨k, l⟩ := hd
    by_cases hk : k = t
    · subst hk
      simp [appendTo, alistGet?]
    · simp [appendTo, alistGet?, hk, ih]

theorem alistGet?_appendTo_ne {β : Type} (m : List (String × List β)) (t t' : String)
    (p : β) (h : t' ≠ t) :
    alistGet? (appendTo m t p) t' = alistGet? m t' := by
  induction m with
  | nil => simp [appendTo, alistGet?, Ne.symm h]
  | cons hd tl ih =>
    obtain ⟨k, l⟩ := hd
    by_cases hk : k = t
    · subst hk
      simp [appendTo, alistGet?, Ne.symm h]
    · simp [appendTo, alistGet?, hk, ih]

/-- Fold preservation of a state predicate. -/
theorem foldl_preserve {σ α : Type} (P : σ → Prop) (f : σ → α → σ)
    (hf : ∀ st x, P st → P (f st x)) :
    ∀ (l : List α) (st : σ), P st → P (l.foldl f st)
  | [], _, h => h
  | x :: xs, st, h => foldl_preserve P f hf xs (f st x) (hf st x h)

/-- The df-equals-postings-length invariant of builder states. -/
def DfMatches (st : BuildState) : Prop :=
  ∀ t, dfOf st t = (postingsOfB st t).length

theorem dfMatches_step (st : BuildState) (docId field : String) (tokens : List String)
    (term : String) (h : DfMatches st) :
    DfMatches
      { st with
        terms := bumpDf st.terms term
        postings := appendTo st.postings term ⟨field, docId, tokens.count term⟩ } := by
  intro t
  by_cases ht : t = term
  · subst ht
    have hh := h t
    simp only [dfOf, postingsOfB] at hh
    simp [dfOf, postingsOfB, alistGet?_bumpDf_self, alistGet?_appendTo_self, hh]
  · have hh := h t
    simp only [dfOf, postingsOfB] at hh
    simp [dfOf, postingsOfB, alistGet?_bumpDf_ne _ _ _ ht,
      alistGet?_appendTo_ne _ _ _ _ ht, hh]

theorem dfMatches_indexField (st : BuildState) (docId field : String)
    (tokens : List String) (h : DfMatches st) :
    DfMatches (indexField st docId field tokens) := by
  unfold indexField
  by_cases he : tokens.isEmpty
  · simpa [he]
  · simp only [he, if_false]
    exact foldl_preserve DfMatches _
      (fun st term hst => dfMatches_step st docId field tokens term hst)
      (counterKeys tokens) st h

theorem dfMatches_indexRecipe (st : BuildState) (r : RecipeRecord) (h : DfMatches st) :
    DfMatches (indexRecipe st r) := by
  unfold indexRecipe
  by_cases hid : r.id = ""
  · simpa [hid] using fun t => h t
  · simp only [hid, if_false]
    split
    · exact fun t => h t
    · exact dfMatches_indexField _ _ _ _
        (dfMatches_indexField _ _ _ _ (dfMatches_indexField _ _ _ _ (fun t => h t)))

/-- Claim C1, amended part: after a build pass, a term's recorded document
frequency equals the number of postings recorded for it — one increment per
distinct term-in-field occurrence per processed record, not one per distinct
containing document. -/
theorem c1_df_equals_postings_count (records : List RecipeRecord) (t : String) :
    dfOf (buildIndex records) t = (postingsOfB (buildIndex records) t).length := by
  have : DfMatches (buildIndex records) := by
    unfold buildIndex
    induction records using List.reverseRecOn with
    | nil => intro t; simp [initState, dfOf, postingsOfB, alistGet?]
    | append_singleton rs r ih =>
      rw [List.foldl_append]
      exact dfMatches_indexRecipe _ _ ih
  exact this t

/-- Claim C1 counterexample: a single record containing the term `garlic` in
both its title and its ingredients yields df(garlic) = 2 while the corpus has
a single document, so df exceeds totalDocuments and cannot be the number of
distinct containing documents. -/
theorem c1_df_counterexample :
    dfOf (buildIndex [⟨"d1", "", "garlic", ["garlic"], []⟩]) ("garlic") = 2 ∧
    totalDocsB (buildIndex [⟨"d1", "", "garlic", ["garlic"], []⟩]) = 1 ∧
    ¬(dfOf (buildIndex [⟨"d1", "", "garlic", ["garlic"], []⟩]) ("garlic") ≤
        totalDocsB (buildIndex [⟨"d1", "", "garlic", ["garlic"], []⟩])) := by
  refine ⟨by decide, by decide, by decide⟩

/-! ## Filter values and external recipe records (`RobustRecipeSearcher`)

A filter dict is an association list from filter key to value.  Values are
numbers, string lists, or booleans; Python truthiness (`if filters.get(k) and
...`) makes 0, `[]`, `False` and a missing key all skip the corresponding
check. -/

/-- A JSON filter value as used by `_apply_filters` and friends. -/
inductive FVal where
  | num (q : ℚ)
  | strs (l : List String)
  | boolean (bv : Bool)
deriving DecidableEq, Repr

/-- A filter dict; the empty list also stands for Python `None`
(`if not filters` treats both alike). -/
abbrev Filters := List (String × FVal)

/-- Python truthiness of `filters.get(key)`. -/
def truthy : Option FVal → Bool
  | none => false
  | some (FVal.num q) => decide (q ≠ 0)
  | some (FVal.strs l) => !l.isEmpty
  | some (FVal.boolean bv) => bv

/-- Numeric view of a filter value (only read behind a `truthy` guard on a
numeric filter; non-numeric values for numeric filters are outside the
modelled inputs). -/
def numOf : Option FVal → ℚ
  | some (FVal.num q) => q
  | _ => 0

/-- String-list view of a filter value. -/
def strsOf : Option FVal → List String
  | some (FVal.strs l) => l
  | _ => []

/-- A normalized recipe record as the Filter Engine reads it from the corpus.
Numeric attributes hold the values after the source's defaulting/coercion:
`times.get(..., 0)` defaults to 0, nutrition and rating fields hold the
`_safe_float`/`_safe_int` result (missing or unparsable becomes 0), and
`pubDate` holds the parsed publication instant with `none` for a missing or
unparsable date (the source's `try/except` skips the check then). -/
structure Recipe where
  cuisine : List String
  ingredients : List String
  difficulty : String
  category : List String
  title : String
  description : String
  keywords : List String
  instructions : List String
  tools : List String
  totalTime : ℚ
  prepTime : ℚ
  cookTime : ℚ
  ratingValue : ℚ
  reviewCountValue : ℚ
  calories : ℚ
  protein : ℚ
  carbs : ℚ
  fat : ℚ
  fiber : ℚ
  sugar : ℚ
  sodium : ℚ
  yieldStr : String
  author : String
  pubDate : Option ℚ
  image : String
deriving DecidableEq, Repr

/-- A recipe with every attribute absent/empty, for building test records. -/
def emptyRecipe : Recipe :=
  ⟨[], [], "", [], "", "", [], [], [], 0, 0, 0, 0, 0, 0, 0, 0, 0, 0, 0, 0, "", "", none, ""⟩

/-- First number in a yield string, `re.search(r'(\d+(?:\.\d+)?)', s)`:
leftmost maximal digit run, with a fractional part only when at least one
digit follows the dot. -/
def firstNumber : List Char → Option ℚ
  | [] => none
  | c :: rest =>
    if isDigitChar c then
      let ip := c :: rest.takeWhile isDigitChar
      let rest' := rest.dropWhile isDigitChar
      match rest' with
      | '.' :: r2 =>
        let fp := r2.takeWhile isDigitChar
        if fp.isEmpty then some (digitsToNat ip : ℚ)
        else some ((digitsToNat ip : ℚ) + (digitsToNat fp : ℚ) / ((10 : ℚ) ^ fp.length))
      | _ => some (digitsToNat ip : ℚ)
    else firstNumber rest

/-- `_apply_filters` with the recipe record in hand: the guard chain of the
source, one `return False` per failing present filter, `True` at the end.
`combined` texts mirror the source's f-string concatenations. -/
def applyFilters (r : Recipe) (f : Filters) : Bool :=
  let g := alistGet? f
  let mealText := lowerStr (r.title ++ " " ++ r.description ++ " " ++
    String.intercalate (" ") r.keywords)
  let methodText := lowerStr (r.title ++ " " ++ r.description ++ " " ++
    String.intercalate (" ") r.instructions)
  if truthy (g ("cuisine")) &&
     !((strsOf (g ("cuisine"))).any fun c => (r.cuisine.map lowerStr).contains (lowerStr c)) then false
  else if truthy (g ("ingredients")) &&
     !((strsOf (g ("ingredients"))).any fun ing => (r.ingredients.map lowerStr).contains (lowerStr ing)) then false
  else if truthy (g ("difficulty")) &&
     !((strsOf (g ("difficulty"))).any fun d => isSubstr (lowerStr d) (lowerStr r.difficulty)) then false
  else if truthy (g ("category")) &&
     !((strsOf (g ("category"))).any fun c => (r.category.map lowerStr).contains (lowerStr c)) then false
  else if truthy (g ("meal_type")) &&
     !((strsOf (g ("meal_type"))).any fun m => isSubstr (lowerStr m) mealText) then false
  else if truthy (g ("dietary")) &&
     !((strsOf (g ("dietary"))).any fun d =>
        isSubstr (lowerStr d) (mealText ++ " " ++ lowerStr (String.intercalate (" ") r.ingredients))) then false
  else if truthy (g ("cooking_method")) &&
     !((strsOf (g ("cooking_method"))).any fun m => isSubstr (lowerStr m) methodText) then false
  else if truthy (g ("tools")) &&
     !((strsOf (g ("tools"))).any fun t => (r.tools.map lowerStr).contains (lowerStr t)) then false
  else if truthy (g ("max_total_minutes")) && r.totalTime > numOf (g ("max_total_minutes")) then false
  else if truthy (g ("min_total_minutes")) && r.totalTime < numOf (g ("min_total_minutes")) then false
  else if truthy (g ("max_prep_minutes")) && r.prepTime > numOf (g ("max_prep_minutes")) then false
  else if truthy (g ("max_cook_minutes")) && r.cookTime > numOf (g ("max_cook_minutes")) then false
  else if truthy (g ("min_rating")) && r.ratingValue < numOf (g ("min_rating")) then false
  else if truthy (g ("max_rating")) && r.ratingValue > numOf (g ("max_rating")) then false
  else if truthy (g ("min_review_count")) && r.reviewCountValue < numOf (g ("min_review_count")) then false
  else if truthy (g ("max_calories")) && r.calories > numOf (g ("max_calories")) then false
  else if truthy (g ("min_calories")) && r.calories < numOf (g ("min_calories")) then false
  else if truthy (g ("max_protein")) && r.protein > numOf (g ("max_protein")) then false
  else if truthy (g ("min_protein")) && r.protein < numOf (g ("min_protein")) then false
  else if truthy (g ("max_carbs")) && r.carbs > numOf (g ("max_carbs")) then false
  else if truthy (g ("min_carbs")) && r.carbs < numOf (g ("min_carbs")) then false
  else if truthy (g ("max_fat")) && r.fat > numOf (g ("max_fat")) then false
  else if truthy (g ("min_fat")) && r.fat < numOf (g ("min_fat")) then false
  else if truthy (g ("max_fiber")) && r.fiber > numOf (g ("max_fiber")) then false
  else if truthy (g ("min_fiber")) && r.fiber < numOf (g ("min_fiber")) then false
  else if truthy (g ("max_sugar")) && r.sugar > numOf (g ("max_sugar")) then false
  else if truthy (g ("min_sugar")) && r.sugar < numOf (g ("min_sugar")) then false
  else if truthy (g ("max_sodium")) && r.sodium > numOf (g ("max_sodium")) then false
  else if truthy (g ("min_sodium")) && r.sodium < numOf (g ("min_sodium")) then false
  else if (r.yieldStr ≠ "" && (truthy (g ("min_yield")) || truthy (g ("max_yield")))) &&
     (match firstNumber r.yieldStr.toList with
      | some v =>
        (truthy (g ("min_yield")) && v < numOf (g ("min_yield"))) ||
        (truthy (g ("max_yield")) && v > numOf (g ("max_yield")))
      | none => truthy (g ("min_yield"))) then false
  else if truthy (g ("author")) &&
     !((strsOf (g ("author"))).any fun a => isSubstr (lowerStr a) (lowerStr r.author)) then false
  else if (truthy (g ("min_publication_date")) || truthy (g ("max_publication_date"))) &&
     (match r.pubDate with
      | some d =>
        (truthy (g ("min_publication_date")) && d < numOf (g ("min_publication_date"))) ||
        (truthy (g ("max_publication_date")) && d > numOf (g ("max_publication_date")))
      | none => false) then false
  else if truthy (g ("has_image")) && stripString r.image = "" then false
  else if truthy (g ("keywords")) &&
     !((strsOf (g ("keywords"))).any fun kw =>
        (r.keywords.map lowerStr).contains (lowerStr kw) ||
        isSubstr (lowerStr kw) (lowerStr (r.title ++ " " ++ r.description))) then false
  else if truthy (g ("min_ingredients")) && (r.ingredients.length : ℚ) < numOf (g ("min_ingredients")) then false
  else if truthy (g ("max_ingredients")) && (r.ingredients.length : ℚ) > numOf (g ("max_ingredients")) then false
  else if truthy (g ("min_instructions")) && (r.instructions.length : ℚ) < numOf (g ("min_instructions")) then false
  else if truthy (g ("max_instructions")) && (r.instructions.length : ℚ) > numOf (g ("max_instructions")) then false
  else true

/-- `_check_time_filters(recipe_data, filters)`: the six time-bound guards,
each skipped when its filter value is absent or falsy. -/
def checkTimeFilters (r : Recipe) (f : Filters) : Bool :=
  let g := alistGet? f
  if truthy (g ("max_total_minutes")) && r.totalTime > numOf (g ("max_total_minutes")) then false
  else if truthy (g ("min_total_minutes")) && r.totalTime < numOf (g ("min_total_minutes")) then false
  else if truthy (g ("max_prep_minutes")) && r.prepTime > numOf (g ("max_prep_minutes")) then false
  else if truthy (g ("min_prep_minutes")) && r.prepTime < numOf (g ("min_prep_minutes")) then false
  else if truthy (g ("max_cook_minutes")) && r.cookTime > numOf (g ("max_cook_minutes")) then false
  else if truthy (g ("min_cook_minutes")) && r.cookTime < numOf (g ("min_cook_minutes")) then false
  else true

/-- The time-bound filter keys of `_only_time_filters`. -/
def timeFilterKeys : List String :=
  ["max_total_minutes", "min_total_minutes", "max_prep_minutes",
   "min_prep_minutes", "max_cook_minutes", "min_cook_minutes"]

/-- `_only_time_filters(filters)`: every supplied key is a time-bound key. -/
def onlyTimeFilters (f : Filters) : Bool :=
  f.all fun p => timeFilterKeys.contains p.1

/-! ## In-memory index of the searcher -/

/-- A loaded posting `(field, doc_id, tf)`; `tf` is whatever `int(...)`
produced from the file. -/
structure SPosting where
  field : String
  docId : String
  tf : Int
deriving DecidableEq, Repr

/-- A loaded document-metadata row. -/
structure SDocMeta where
  url : String
  title : String
  lenTitle : Int
  lenIng : Int
  lenInstr : Int
deriving DecidableEq, Repr

/-- The three in-memory structures of `RobustRecipeSearcher` after
`_load_index`. -/
structure SearchIndex where
  terms : List (String × (Int × ℚ))
  postings : List (String × List SPosting)
  docmeta : List (String × SDocMeta)
deriving DecidableEq, Repr

/-- `self.total_docs = len(self.doc_metadata)`. -/
def totalDocsS (idx : SearchIndex) : Nat := idx.docmeta.length

/-- `self.postings[term]` on the loaded `defaultdict(list)`: `[]` when the
term has no entry. -/
def postingsOfS (idx : SearchIndex) (t : String) : List SPosting :=
  (alistGet? idx.postings t).getD []

/-- The normalized corpus `recipes.jsonl` as an association list in file
order; `_get_recipe_data` returns the first line whose id matches. -/
abbrev Corpus := List (String × Recipe)

/-- `_apply_filters(doc_id, filters)` with no preloaded record: empty filters
always pass; otherwise the record is loaded from the corpus, and a document
whose record cannot be loaded fails the filters. -/
def applyFiltersDoc (corpus : Corpus) (docId : String) (f : Filters) : Bool :=
  if f.isEmpty then true
  else
    match alistGet? corpus docId with
    | none => false
    | some r => applyFilters r f

/-- The line scan of `_load_recipes_batch`: keep lines whose id is requested
(a later duplicate line overwrites), and stop as soon as as many entries as
requested ids are held. -/
def loadBatchGo (ids : List String) : Corpus → List (String × Recipe) → List (String × Recipe)
  | [], acc => acc
  | (i, r) :: rest, acc =>
    if ids.contains i then
      if (dictInsert acc i r).length = ids.length then dictInsert acc i r
      else loadBatchGo ids rest (dictInsert acc i r)
    else loadBatchGo ids rest acc

/-- `_load_recipes_batch(doc_ids)`: scan the corpus in file order collecting
the requested recipes. -/
def loadRecipesBatch (corpus : Corpus) (ids : List String) : List (String × Recipe) :=
  loadBatchGo ids corpus []

/-- Fixed-size batches of a list (`range(0, len(xs), n)` slicing); fuel-driven
with fuel instantiated to the list length. -/
def chunksOfF {α : Type} (n : Nat) : Nat → List α → List (List α)
  | 0, _ => []
  | _, [] => []
  | fuel + 1, l => l.take n :: chunksOfF n fuel (l.drop n)

/-- Fixed-size batches of a list. -/
def chunksOf {α : Type} (n : Nat) (l : List α) : List (List α) :=
  chunksOfF n l.length l

/-! ## Snippets -/

/-- Case-insensitive prefix match of a query term against a char list. -/
def matchCI : List Char → List Char → Bool
  | [], _ => true
  | _ :: _, [] => false
  | a :: as, c :: cs => a.toLower = c.toLower && matchCI as cs

/-- One `re.sub(rf'\b{term}\b', f'**{term}**', s, re.IGNORECASE)` pass:
replace every boundary-delimited case-insensitive occurrence of the (letters
only, non-empty) query term by the emphasised lowercase term. -/
def highlightTermF (term : List Char) : Bool → Nat → List Char → List Char
  | _, 0, l => l
  | _, _ + 1, [] => []
  | prevIsWord, fuel + 1, c :: rest =>
    let here := c :: rest
    let boundaryAfter : Bool :=
      match here.drop term.length with
      | [] => true
      | d :: _ => !isWordChar d
    if !term.isEmpty && !prevIsWord && matchCI term here && boundaryAfter then
      '*' :: '*' :: (term ++ '*' :: '*' :: highlightTermF term true fuel (here.drop term.length))
    else c :: highlightTermF term (isWordChar c) fuel rest

/-- `_generate_snippet(doc_id, query_terms)`: the stored title with each query
term highlighted, or `"Document <id>"` when no (non-empty) title is stored. -/
def generateSnippet (docmeta : List (String × SDocMeta)) (docId : String)
    (qterms : List String) : String :=
  match alistGet? docmeta docId with
  | some m =>
    if m.title ≠ "" then
      qterms.foldl
        (fun s t => String.mk (highlightTermF t.toList false s.toList.length s.toList))
        m.title
    else "Document " ++ docId
  | none => "Document " ++ docId

/-! ## Scores and results -/

/-- A result score.  `val` is a plain float score (BM25 sums and the literal
`1.0` of the filter-only path).  `cos` keeps the TF-IDF cosine numerator and
the squared document magnitude; the actual float is
`num / (queryMagnitude * sqrt magSq)`, and since `queryMagnitude > 0` is
constant within one result list, the sort order is fully determined by the
pair (see `cosineGe`). -/
inductive Score where
  | val (x : ℚ)
  | cos (num magSq : ℚ)
deriving DecidableEq, Repr

/-- A search result tuple `(doc_id, score, snippet)`. -/
abbrev SearchResult := String × Score × String

/-- Exact comparison implementing `a.score ≥ b.score` for two cosine score
pairs with positive squared magnitudes: the sign split plus cross-multiplied
squares is equivalent to comparing `n / sqrt m` values. -/
def cosineGe (a c : ℚ × ℚ) : Bool :=
  if 0 ≤ a.1 then
    if 0 ≤ c.1 then decide (c.1 ^ 2 * a.2 ≤ a.1 ^ 2 * c.2) else true
  else
    if 0 ≤ c.1 then false else decide (a.1 ^ 2 * c.2 ≤ c.1 ^ 2 * a.2)

/-- The descending-score comparator of `results.sort(key=..., reverse=True)`;
ties keep original order (stability). -/
def scoreGeB (x y : SearchResult) : Bool :=
  match x.2.1, y.2.1 with
  | Score.val a, Score.val c => decide (c ≤ a)
  | Score.cos n1 m1, Score.cos n2 m2 => cosineGe (n1, m1) (n2, m2)
  | _, _ => true

/-- The ascending-doc-id comparator of `results.sort(key=lambda x: x[0])`. -/
def docIdLe (x y : SearchResult) : Bool := !strLt y.1 x.1

/-! ## Filter-only document scan (`_filter_all_documents`) -/

/-- One batch of `_filter_by_time_only`: the loaded records of the batch in
corpus file order, kept when the time filters pass. -/
def timeOnlyBatch (docmeta : List (String × SDocMeta)) (corpus : Corpus)
    (f : Filters) (acc : List SearchResult) (batch : List String) :
    List SearchResult :=
  (loadRecipesBatch corpus batch).foldl
    (fun acc dr =>
      if checkTimeFilters dr.2 f then
        acc ++ [(dr.1, Score.val 1, generateSnippet docmeta dr.1 [])]
      else acc)
    acc

/-- `_filter_by_time_only(filters)`: batches of 100 over all metadata ids;
within a batch, loaded records are visited in corpus file order and kept when
the time filters pass. -/
def filterByTimeOnly (idx : SearchIndex) (corpus : Corpus) (f : Filters) :
    List SearchResult :=
  (chunksOf 100 (idx.docmeta.map Prod.fst)).foldl
    (timeOnlyBatch idx.docmeta corpus f) []

/-- The inner loop of the generic filter-only scan: visit the batch ids in
order, keep passing documents whose record loaded, and break once 1000
results are held. -/
def innerScan (docmeta : List (String × SDocMeta)) (loaded : List (String × Recipe))
    (f : Filters) : List String → List SearchResult → List SearchResult
  | [], acc => acc
  | d :: ds, acc =>
    match alistGet? loaded d with
    | some r =>
      if applyFilters r f then
        if 1000 ≤ (acc ++ [(d, Score.val 1, generateSnippet docmeta d [])]).length then
          acc ++ [(d, Score.val 1, generateSnippet docmeta d [])]
        else innerScan docmeta loaded f ds
          (acc ++ [(d, Score.val 1, generateSnippet docmeta d [])])
      else innerScan docmeta loaded f ds acc
    | none => innerScan docmeta loaded f ds acc

/-- The outer loop of the generic filter-only scan over batches of 500,
breaking once 1000 results are held. -/
def scanChunks (docmeta : List (String × SDocMeta)) (corpus : Corpus) (f : Filters) :
    List (List String) → List SearchResult → List SearchResult
  | [], acc => acc
  | batch :: rest, acc =>
    if 1000 ≤ (innerScan docmeta (loadRecipesBatch corpus batch) f batch acc).length then
      innerScan docmeta (loadRecipesBatch corpus batch) f batch acc
    else scanChunks docmeta corpus f rest
      (innerScan docmeta (loadRecipesBatch corpus batch) f batch acc)

/-- `str(sorted(filters.items()))`, the memoization key: the filter items in
ascending key order (keys are unique, so value comparison never happens; the
sorted item list stands for its string representation, which it determines
injectively). -/
def sortedItems (f : Filters) : Filters :=
  stableSort (fun x y => !strLt y.1 x.1) f

/-- The mutable cache state of the searcher (`self._filter_cache`). -/
structure SearcherState where
  filterCache : List (Filters × List SearchResult)
deriving DecidableEq, Repr

/-- Cache lookup by canonical key. -/
def cacheGet? : List (Filters × List SearchResult) → Filters →
    Option (List SearchResult)
  | [], _ => none
  | (k, v) :: rest, key => if k = key then some v else cacheGet? rest key

/-- `_filter_all_documents(filters)`: memoized filter-only document scan.
Time-only filter sets stream the whole corpus; anything else scans at most
the first 2000 document ids in batches of 500, stops at 1000 collected
results, and sorts by document id. -/
def filterAllDocuments (idx : SearchIndex) (corpus : Corpus) (st : SearcherState)
    (f : Filters) : List SearchResult × SearcherState :=
  if f.isEmpty then ([], st)
  else
    let key := sortedItems f
    match cacheGet? st.filterCache key with
    | some res => (res, st)
    | none =>
      if onlyTimeFilters f then
        let res := filterByTimeOnly idx corpus f
        (res, ⟨st.filterCache ++ [(key, res)]⟩)
      else
        let docIds := (idx.docmeta.map Prod.fst).take 2000
        let raw := scanChunks idx.docmeta corpus f (chunksOf 500 docIds) []
        let res := stableSort docIdLe raw
        (res, ⟨st.filterCache ++ [(key, res)]⟩)

/-! ## Ranking engines -/

/-- Fixed field weights shared by both scorers. -/
def fieldWeights : List (String × ℚ) :=
  [("title", 3), ("ingredients", 2), ("instructions", 1)]

/-- `self.field_weights[field]`; `none` models the `KeyError` raised on an
unknown field name. -/
def fieldWeight? (field : String) : Option ℚ := alistGet? fieldWeights field

/-- BM25 parameter `self.k1`. -/
def k1 : ℚ := 1.2

/-- BM25 parameter `self.b`. -/
def b : ℚ := 0.75

/-- The field-specific stored length used by BM25 (`title`/`ingredients`
selected explicitly, anything else falls into the `else` branch for
`instructions`). -/
def docLengthFor (m : SDocMeta) (field : String) : Int :=
  if field = "title" then m.lenTitle
  else if field = "ingredients" then m.lenIng
  else m.lenInstr

/-- The per-posting BM25 contribution:
`(tf*(k1+1)) / (tf + k1*(1-b+b*(fieldLen/avgLen))) * idf * fieldWeight`. -/
def bm25TermScore (tf dl avg idf w : ℚ) : ℚ :=
  (tf * (k1 + 1)) / (tf + k1 * (1 - b + b * (dl / avg))) * idf * w

/-- `doc_scores[doc] += v` on a `defaultdict(float)`. -/
def addScore : List (String × ℚ) → String → ℚ → List (String × ℚ)
  | [], d, v => [(d, v)]
  | (k, s) :: rest, d, v =>
    if k = d then (k, s + v) :: rest else (k, s) :: addScore rest d v

/-- `query_tf`: term → multiplicity over the tokenized query, in
first-occurrence order (`query_tf[t] = query_tf.get(t, 0) + 1`). -/
def queryTf (qterms : List String) : List (String × Nat) :=
  qterms.foldl bumpDf []

/-- Sum of the three stored lengths over all documents (numerator of the
average document length). -/
def sumLens (idx : SearchIndex) : Int :=
  (idx.docmeta.map fun dm => dm.2.lenTitle + dm.2.lenIng + dm.2.lenInstr).sum

/-- The BM25 posting loop for one query term: filter inline, then look up
metadata and field weight (a failing lookup is the source's `KeyError`,
aborting the whole search — modelled as `none`). -/
def bm25Postings (docmeta : List (String × SDocMeta)) (corpus : Corpus) (f : Filters)
    (avg idf : ℚ) : List SPosting → List (String × ℚ) → Option (List (String × ℚ))
  | [], acc => some acc
  | p :: ps, acc =>
    if applyFiltersDoc corpus p.docId f then
      match alistGet? docmeta p.docId with
      | none => none
      | some m =>
        match fieldWeight? p.field with
        | none => none
        | some w =>
          bm25Postings docmeta corpus f avg idf ps
            (addScore acc p.docId
              (bm25TermScore (p.tf : ℚ) ((docLengthFor m p.field : Int) : ℚ) avg idf w))
    else bm25Postings docmeta corpus f avg idf ps acc

/-- The BM25 term loop: skip query terms absent from the dictionary. -/
def bm25Terms (idx : SearchIndex) (corpus : Corpus) (f : Filters) (avg : ℚ) :
    List (String × Nat) → List (String × ℚ) → Option (List (String × ℚ))
  | [], acc => some acc
  | (t, _) :: rest, acc =>
    match alistGet? idx.terms t with
    | none => bm25Terms idx corpus f avg rest acc
    | some (_, idf) =>
      match bm25Postings idx.docmeta corpus f avg idf (postingsOfS idx t) acc with
      | none => none
      | some acc' => bm25Terms idx corpus f avg rest acc'

/-- `search_bm25` before pagination: the full sorted result list together with
the cache state.  The `avg = 0` branch reproduces the source's observable
behaviour: with a zero average length the first scored posting raises
`ZeroDivisionError`, caught by the handler which returns `[]`, and when no
posting is scored the result list is empty anyway. -/
def searchBM25Full (idx : SearchIndex) (corpus : Corpus) (st : SearcherState)
    (q : String) (f : Filters) : List SearchResult × SearcherState :=
  let qterms := tokenize q
  if qterms.isEmpty then
    if f.isEmpty then ([], st)
    else filterAllDocuments idx corpus st f
  else
    if totalDocsS idx = 0 then ([], st)
    else
      let avg : ℚ := (sumLens idx : ℚ) / (totalDocsS idx : ℚ)
      if avg = 0 then ([], st)
      else
        match bm25Terms idx corpus f avg (queryTf qterms) [] with
        | none => ([], st)
        | some scores =>
          let results := scores.map fun ds =>
            (ds.1, Score.val ds.2, generateSnippet idx.docmeta ds.1 qterms)
          (stableSort scoreGeB results, st)

/-- `search_bm25(query, k, filters, offset)`: the full list, then
`results[offset:offset + k]`. -/
def searchBM25 (idx : SearchIndex) (corpus : Corpus) (st : SearcherState)
    (q : String) (k : Nat) (f : Filters) (offset : Nat) :
    List SearchResult × SearcherState :=
  let full := searchBM25Full idx corpus st q f
  ((full.1.drop offset).take k, full.2)

/-- `(doc_scores[d], doc_magnitudes[d]) += (a, c)` on the paired TF-IDF
accumulators (both dicts always gain keys together). -/
def addPair : List (String × (ℚ × ℚ)) → String → ℚ × ℚ → List (String × (ℚ × ℚ))
  | [], d, v => [(d, v)]
  | (k, s) :: rest, d, v =>
    if k = d then (k, (s.1 + v.1, s.2 + v.2)) :: rest
    else (k, s) :: addPair rest d v

/-- The TF-IDF posting loop for one query term (filter inline; an unknown
field's weight lookup is the aborting `KeyError`). -/
def tfidfPostings (corpus : Corpus) (f : Filters) (idf qw : ℚ) :
    List SPosting → List (String × (ℚ × ℚ)) → Option (List (String × (ℚ × ℚ)))
  | [], acc => some acc
  | p :: ps, acc =>
    if applyFiltersDoc corpus p.docId f then
      match fieldWeight? p.field with
      | none => none
      | some w =>
        let dw := (p.tf : ℚ) * idf * w
        tfidfPostings corpus f idf qw ps (addPair acc p.docId (qw * dw, dw ^ 2))
    else tfidfPostings corpus f idf qw ps acc

/-- The TF-IDF term loop. -/
def tfidfTerms (idx : SearchIndex) (corpus : Corpus) (f : Filters) :
    List (String × Nat) → List (String × (ℚ × ℚ)) → Option (List (String × (ℚ × ℚ)))
  | [], acc => some acc
  | (t, qn) :: rest, acc =>
    match alistGet? idx.terms t with
    | none => tfidfTerms idx corpus f rest acc
    | some (_, idf) =>
      match tfidfPostings corpus f idf ((qn : ℚ) * idf) (postingsOfS idx t) acc with
      | none => none
      | some acc' => tfidfTerms idx corpus f rest acc'

/-- The squared query magnitude `Σ (query_tf(t) * idf(t))^2` over dictionary
terms; the source compares `math.sqrt` of this against `0`, which is zero
exactly when this sum is. -/
def qMagSq (idx : SearchIndex) (qtf : List (String × Nat)) : ℚ :=
  qtf.foldl
    (fun s tq =>
      match alistGet? idx.terms tq.1 with
      | none => s
      | some (_, idf) => s + ((tq.2 : ℚ) * idf) ^ 2)
    0

/-- `search_tfidf` before pagination: documents with positive squared
magnitude, sorted by descending cosine. -/
def searchTFIDFFull (idx : SearchIndex) (corpus : Corpus) (st : SearcherState)
    (q : String) (f : Filters) : List SearchResult × SearcherState :=
  let qterms := tokenize q
  if qterms.isEmpty then
    if f.isEmpty then ([], st)
    else filterAllDocuments idx corpus st f
  else
    let qtf := queryTf qterms
    if qMagSq idx qtf = 0 then ([], st)
    else
      match tfidfTerms idx corpus f qtf [] with
      | none => ([], st)
      | some pairs =>
        let results := pairs.filterMap fun dp =>
          if 0 < dp.2.2 then
            some (dp.1, Score.cos dp.2.1 dp.2.2, generateSnippet idx.docmeta dp.1 qterms)
          else none
        (stableSort scoreGeB results, st)

/-- `search_tfidf(query, k, filters, offset)`. -/
def searchTFIDF (idx : SearchIndex) (corpus : Corpus) (st : SearcherState)
    (q : String) (k : Nat) (f : Filters) (offset : Nat) :
    List SearchResult × SearcherState :=
  let full := searchTFIDFFull idx corpus st q f
  ((full.1.drop offset).take k, full.2)

/-- `matching_docs.add(doc_id)` (a Python set tracked as a duplicate-free
list; only its size is observed). -/
def matchedAdd (acc : List String) (d : String) : List String :=
  if acc.contains d then acc else acc ++ [d]

/-- The postings loop of `get_total_results` for one query term: every
filter-passing posting contributes its document id to the matched set. -/
def totalPostings (corpus : Corpus) (f : Filters) (acc : List String)
    (ps : List SPosting) : List String :=
  ps.foldl
    (fun acc p =>
      if applyFiltersDoc corpus p.docId f then matchedAdd acc p.docId else acc)
    acc

/-- The `matching_docs` set of `get_total_results` for a term-bearing query:
for every raw query term with a postings entry, every filter-passing posting
contributes its document id. -/
def totalMatched (idx : SearchIndex) (corpus : Corpus) (f : Filters)
    (qterms : List String) : List String :=
  qterms.foldl
    (fun acc t =>
      match alistGet? idx.postings t with
      | none => acc
      | some ps => totalPostings corpus f acc ps)
    []

/-- `get_total_results(query, filters)`: the same matching as search without
pagination — the filter-only list length for empty queries, otherwise the
number of documents holding a filter-passing posting of some query term. -/
def getTotalResults (idx : SearchIndex) (corpus : Corpus) (st : SearcherState)
    (q : String) (f : Filters) : Nat × SearcherState :=
  let qterms := tokenize q
  if qterms.isEmpty then
    if f.isEmpty then (0, st)
    else
      let res := filterAllDocuments idx corpus st f
      (res.1.length, res.2)
  else
    ((totalMatched idx corpus f qterms).length, st)

/-! ## Index loader (`_load_index`) -/

/-- Python `int(s)` on optionally signed decimal strings (surrounding
whitespace stripped; underscores and other exotic accepted forms are outside
the modelled inputs). -/
def parsePyInt (s : String) : Option Int :=
  match stripCharsL s.toList with
  | '-' :: ds =>
    if !ds.isEmpty && ds.all isDigitChar then some (-(digitsToNat ds : Int)) else none
  | '+' :: ds =>
    if !ds.isEmpty && ds.all isDigitChar then some (digitsToNat ds : Int) else none
  | ds =>
    if !ds.isEmpty && ds.all isDigitChar then some (digitsToNat ds : Int) else none

/-- Unsigned decimal float body: `digits`, `digits.`, `.digits` or
`digits.digits`. -/
def parseDecimal (cs : List Char) : Option ℚ :=
  let ip := cs.takeWhile isDigitChar
  let rest := cs.dropWhile isDigitChar
  match rest with
  | [] => if ip.isEmpty then none else some (digitsToNat ip : ℚ)
  | '.' :: fp =>
    if fp.all isDigitChar && !(ip.isEmpty && fp.isEmpty) then
      some ((digitsToNat ip : ℚ) + (digitsToNat fp : ℚ) / ((10 : ℚ) ^ fp.length))
    else none
  | _ => none

/-- Python `float(s)` on plain decimal strings (exponents, `inf` and `nan` are
outside the modelled inputs). -/
def parsePyFloat (s : String) : Option ℚ :=
  match stripCharsL s.toList with
  | '-' :: cs => (parseDecimal cs).map fun q => -q
  | '+' :: cs => parseDecimal cs
  | cs => parseDecimal cs

/-- One row of the `terms.tsv` loop: blank lines and rows with wrong arity or
unparsable numbers are skipped (warned), good rows are stored. -/
def termsRowStep (acc : List (String × (Int × ℚ))) (line : String) :
    List (String × (Int × ℚ)) :=
  if stripString line = "" then acc
  else
    match splitTab (stripString line) with
    | [t, d, i] =>
      match parsePyInt d, parsePyFloat i with
      | some dv, some iv => dictInsert acc t (dv, iv)
      | _, _ => acc
    | _ => acc

/-- The `terms.tsv` row loop. -/
def loadTermsRows (rows : List String) : List (String × (Int × ℚ)) :=
  rows.foldl termsRowStep []

/-- One row of the `postings.tsv` loop: rows whose term is not in the
dictionary are dropped; on a good row the posting is appended; when `int(tf)`
fails the `defaultdict` access has already created the (empty) entry before
the exception is caught. -/
def postingsRowStep (terms : List (String × (Int × ℚ)))
    (acc : List (String × List SPosting)) (line : String) :
    List (String × List SPosting) :=
  if stripString line = "" then acc
  else
    match splitTab (stripString line) with
    | [t, fld, d, tf] =>
      if (alistGet? terms t).isSome then
        match parsePyInt tf with
        | some n => appendTo acc t ⟨fld, d, n⟩
        | none => ensureKey acc t
      else acc
    | _ => acc

/-- The `postings.tsv` row loop. -/
def loadPostingsRows (terms : List (String × (Int × ℚ))) (rows : List String) :
    List (String × List SPosting) :=
  rows.foldl (postingsRowStep terms) []

/-- One row of the `docmeta.tsv` loop: rows need at least 6 fields
(`parts[:6]`) and three parsable lengths. -/
def docmetaRowStep (acc : List (String × SDocMeta)) (line : String) :
    List (String × SDocMeta) :=
  if stripString line = "" then acc
  else
    match splitTab (stripString line) with
    | d :: u :: ti :: l1 :: l2 :: l3 :: _ =>
      match parsePyInt l1, parsePyInt l2, parsePyInt l3 with
      | some a1, some a2, some a3 => dictInsert acc d ⟨u, ti, a1, a2, a3⟩
      | _, _, _ => acc
    | _ => acc

/-- The `docmeta.tsv` row loop. -/
def loadDocmetaRows (rows : List String) : List (String × SDocMeta) :=
  rows.foldl docmetaRowStep []

/-- The failure modes of startup (`__init__` + `_load_index`). -/
inductive LoadError where
  | dirNotFound
  | missingFile (which : String)
  | headerUnreadable (which : String)
  | noDocuments
deriving DecidableEq, Repr

/-- `RobustRecipeSearcher(index_dir)` startup: a missing directory or missing
required file raises `FileNotFoundError`; a file with no lines at all fails
reading the header (`next(f)` raises); malformed rows are skipped per row; a
zero document count after loading all three files raises `ValueError`.  A
header row with unexpected column names only warns, so the header content is
not inspected here. -/
def loadIndex (dirExists : Bool) (termsFile postingsFile docmetaFile : Option (List String)) :
    Except LoadError SearchIndex :=
  if !dirExists then Except.error LoadError.dirNotFound
  else
    match termsFile with
    | none => Except.error (LoadError.missingFile ("terms.tsv"))
    | some tlines =>
      match tlines with
      | [] => Except.error (LoadError.headerUnreadable ("terms.tsv"))
      | _ :: trows =>
        match postingsFile with
        | none => Except.error (LoadError.missingFile ("postings.tsv"))
        | some plines =>
          match plines with
          | [] => Except.error (LoadError.headerUnreadable ("postings.tsv"))
          | _ :: prows =>
            match docmetaFile with
            | none => Except.error (LoadError.missingFile ("docmeta.tsv"))
            | some dlines =>
              match dlines with
              | [] => Except.error (LoadError.headerUnreadable ("docmeta.tsv"))
              | _ :: drows =>
                if (loadDocmetaRows drows).length = 0 then
                  Except.error LoadError.noDocuments
                else
                  Except.ok ⟨loadTermsRows trows,
                    loadPostingsRows (loadTermsRows trows) prows,
                    loadDocmetaRows drows⟩

/-! ## Shared helper lemmas -/

theorem sInsert_perm {α : Type} (le : α → α → Bool) (x : α) (l : List α) :
    (sInsert le x l).Perm (x :: l) := by
  induction l with
  | nil => simp [sInsert]
  | cons y ys ih =>
    by_cases h : le x y
    · simp [sInsert, h]
    · simp only [sInsert, h, if_false, Bool.false_eq_true]
      exact ((ih.cons y).trans (List.Perm.swap x y ys))

theorem stableSort_perm {α : Type} (le : α → α → Bool) (l : List α) :
    (stableSort le l).Perm l := by
  induction l with
  | nil => exact List.Perm.refl _
  | cons x xs ih =>
    exact (sInsert_perm le x (stableSort le xs)).trans (ih.cons x)

theorem mem_stableSort {α : Type} (le : α → α → Bool) (l : List α) (x : α) :
    x ∈ stableSort le l ↔ x ∈ l :=
  (stableSort_perm le l).mem_iff

theorem length_stableSort {α : Type} (le : α → α → Bool) (l : List α) :
    (stableSort le l).length = l.length :=
  (stableSort_perm le l).length_eq

theorem slice_of_page {α : Type} (l : List α) (n m : Nat) :
    (((l.drop 0).take (n + m)).drop n).take m = (l.drop n).take m := by
  rw [List.drop_zero, List.drop_take]
  simp [Nat.add_sub_cancel_left, List.take_take]

/-! ## Claim C9 -/

/-- Claim C9: tokenizing `"Chicken &amp; Rice, serves 4!!"` yields exactly the
terms chicken, rice and serves — the HTML entity, punctuation, the bare
number and stopwords are removed and terms are lowercased. -/
theorem c9_tokenize_scenario :
    tokenize ("Chicken &amp; Rice, serves 4!!") = ["chicken", "rice", "serves"] ∧
    ∀ w, w ∈ tokenize ("Chicken &amp; Rice, serves 4!!") ↔
      (w = "chicken" ∨ w = "rice" ∨ w = "serves") := by
  have h : tokenize ("Chicken &amp; Rice, serves 4!!") = ["chicken", "rice", "serves"] := by
    decide
  refine ⟨h, ?_⟩
  intro w
  rw [h]
  simp

/-! ## Claim C6 -/

/-- Claim C6: the pagination law.  For both metrics (and hence also for the
filter-only delegation they share), the slice `[n:n+m]` of the page fetched
with offset 0 and limit `n+m` equals the page fetched with offset `n` and
limit `m`: offsets and limits are applied to the fully sorted result list,
never before sorting. -/
theorem c6_pagination_law (idx : SearchIndex) (corpus : Corpus) (st : SearcherState)
    (q : String) (f : Filters) (n m : Nat) :
    ((searchBM25 idx corpus st q (n + m) f 0).1.drop n).take m
      = (searchBM25 idx corpus st q m f n).1 ∧
    ((searchTFIDF idx corpus st q (n + m) f 0).1.drop n).take m
      = (searchTFIDF idx corpus st q m f n).1 := by
  constructor
  · simpa [searchBM25] using slice_of_page (searchBM25Full idx corpus st q f).1 n m
  · simpa [searchTFIDF] using slice_of_page (searchTFIDFFull idx corpus st q f).1 n m

/-! ## Claim C5 -/

/-- Claim C5 counterexample: with a negative idf — which this pipeline's
index files do contain, since the builder lets df exceed totalDocuments and
then stores `ln(N/df) < 0` — the per-posting BM25 contribution strictly
decreases when tf rises and strictly increases when the field length rises. -/
theorem c5_bm25_counterexample :
    bm25TermScore 2 1 1 (-1) 1 < bm25TermScore 1 1 1 (-1) 1 ∧
    bm25TermScore 1 1 1 (-1) 1 < bm25TermScore 1 2 1 (-1) 1 := by
  constructor <;> norm_num [bm25TermScore, k1, b]

/-- Claim C5, amended: for nonnegative idf (and nonnegative field weight,
positive average length, nonnegative lengths and term frequencies) the
per-posting BM25 contribution is monotone non-decreasing in tf at fixed field
length, and monotone non-increasing in field length at fixed tf. -/
theorem c5_bm25_monotone (tf1 tf2 dl dl2 avg idf w : ℚ)
    (htf1 : 0 ≤ tf1) (htf : tf1 ≤ tf2) (hdl : 0 ≤ dl) (hdl2 : dl ≤ dl2)
    (havg : 0 < avg) (hidf : 0 ≤ idf) (hw : 0 ≤ w) :
    bm25TermScore tf1 dl avg idf w ≤ bm25TermScore tf2 dl avg idf w ∧
    bm25TermScore tf1 dl2 avg idf w ≤ bm25TermScore tf1 dl avg idf w := by
  have hC : ∀ L : ℚ, 0 ≤ L → 0 < k1 * (1 - b + b * (L / avg)) := by
    intro L hL
    have hq : 0 ≤ L / avg := div_nonneg hL havg.le
    rw [k1, b]
    nlinarith
  have hk1 : (0 : ℚ) < k1 + 1 := by rw [k1]; norm_num
  constructor
  · have hC0 := hC dl hdl
    have hd1 : 0 < tf1 + k1 * (1 - b + b * (dl / avg)) := by linarith
    have hd2 : 0 < tf2 + k1 * (1 - b + b * (dl / avg)) := by linarith
    have key : (tf1 * (k1 + 1)) / (tf1 + k1 * (1 - b + b * (dl / avg)))
        ≤ (tf2 * (k1 + 1)) / (tf2 + k1 * (1 - b + b * (dl / avg))) := by
      rw [div_le_div_iff₀ hd1 hd2]
      nlinarith [mul_le_mul_of_nonneg_right htf hC0.le]
    exact mul_le_mul_of_nonneg_right (mul_le_mul_of_nonneg_right key hidf) hw
  · have hC1 := hC dl hdl
    have hC2 := hC dl2 (le_trans hdl hdl2)
    have hCle : k1 * (1 - b + b * (dl / avg)) ≤ k1 * (1 - b + b * (dl2 / avg)) := by
      have hdiv : dl / avg ≤ dl2 / avg := by gcongr
      rw [k1, b]
      nlinarith
    have hd1 : 0 < tf1 + k1 * (1 - b + b * (dl / avg)) := by linarith
    have hd2 : 0 < tf1 + k1 * (1 - b + b * (dl2 / avg)) := by linarith
    have hnum : 0 ≤ tf1 * (k1 + 1) := mul_nonneg htf1 hk1.le
    have key : (tf1 * (k1 + 1)) / (tf1 + k1 * (1 - b + b * (dl2 / avg)))
        ≤ (tf1 * (k1 + 1)) / (tf1 + k1 * (1 - b + b * (dl / avg))) := by
      rw [div_le_div_iff₀ hd2 hd1]
      nlinarith
    exact mul_le_mul_of_nonneg_right (mul_le_mul_of_nonneg_right key hidf) hw

/-- Witness for the amended C5 theorem at tf 1 ≤ 2, field length 1 ≤ 2,
average length 1, idf 1, weight 1. -/
theorem c5_bm25_monotone_witness :
    bm25TermScore 1 1 1 1 1 ≤ bm25TermScore 2 1 1 1 1 ∧
    bm25TermScore 1 2 1 1 1 ≤ bm25TermScore 1 1 1 1 1 := by
  have h := c5_bm25_monotone 1 2 1 2 1 1 1 (by norm_num) (by norm_num) (by norm_num)
    (by norm_num) (by norm_num) (by norm_num) (by norm_num)
  exact ⟨h.1, h.2⟩

/-! ## Claim C2 -/

/-- Metadata of the one-document demonstration corpus. -/
def demoMeta : SDocMeta := ⟨"u", "Bread", 1, 0, 0⟩

/-- A one-term, one-document demonstration index. -/
def demoIdx : SearchIndex :=
  ⟨[("garlic", (1, 1))], [("garlic", [⟨"title", "d1", 1⟩])], [("d1", demoMeta)]⟩

/-- The demonstration recipe: declares a total time of 30 minutes. -/
def demoRecipe : Recipe := { emptyRecipe with totalTime := 30 }

/-- The demonstration corpus with the single document `d1`. -/
def demoCorpus : Corpus := [("d1", demoRecipe)]

/-- A fresh searcher state (empty filter cache). -/
def st0 : SearcherState := ⟨[]⟩

/-- The filter set `{max_total_minutes: 0}`. -/
def zeroTimeFilter : Filters := [("max_total_minutes", FVal.num 0)]

/-- Claim C2 counterexample: on a corpus whose only document declares a total
time of 30 (> 0), the empty query with filter `{max_total_minutes: 0}`
returns that document — not the empty list the claim demands. -/
theorem c2_zero_time_counterexample :
    (∀ e ∈ demoCorpus, 0 < e.2.totalTime) ∧
    (searchBM25 demoIdx demoCorpus st0 ("") 10 zeroTimeFilter 0).1
      = [("d1", Score.val 1, "Bread")] ∧
    (searchBM25 demoIdx demoCorpus st0 ("") 10 zeroTimeFilter 0).1 ≠ [] := by
  refine ⟨by decide, by decide, by decide⟩

/-- Claim C2, amended: a `max_total_minutes` value of 0 is falsy, so the time
bound is ignored — every record passes the time check, and the search returns
the corpus documents whose records load (here the whole one-document corpus),
with no error raised. -/
theorem c2_zero_time_filter_ignored :
    (∀ r : Recipe, checkTimeFilters r zeroTimeFilter = true) ∧
    (searchBM25 demoIdx demoCorpus st0 ("") 10 zeroTimeFilter 0).1
      = [("d1", Score.val 1, "Bread")] :=
  ⟨fun _ => rfl, by decide⟩

/-! ## Claim C8 -/

/-- A `terms.tsv` row the loader skips: wrong arity, or an unparsable df or
idf field (the blank-line case is also covered by the wrong-arity branch). -/
def termsRowMalformed (line : String) : Bool :=
  match splitTab (stripString line) with
  | [_, d, i] => !((parsePyInt d).isSome && (parsePyFloat i).isSome)
  | _ => true

/-- A `postings.tsv` row of wrong arity, skipped by the loader. -/
def postingsRowMalformed (line : String) : Bool :=
  match splitTab (stripString line) with
  | [_, _, _, _] => false
  | _ => true

/-- A `docmeta.tsv` row the loader skips: fewer than 6 fields or an
unparsable length field. -/
def docmetaRowMalformed (line : String) : Bool :=
  match splitTab (stripString line) with
  | _ :: _ :: _ :: l1 :: l2 :: l3 :: _ =>
    !((parsePyInt l1).isSome && (parsePyInt l2).isSome && (parsePyInt l3).isSome)
  | _ => true

theorem termsRowStep_malformed (acc : List (String × (Int × ℚ))) (line : String)
    (h : termsRowMalformed line = true) : termsRowStep acc line = acc := by
  unfold termsRowStep
  unfold termsRowMalformed at h
  by_cases hb : stripString line = ""
  · simp [hb]
  · simp only [hb, if_false]
    split
    · next t d i heq =>
      rw [heq] at h
      cases hd : parsePyInt d <;> cases hi : parsePyFloat i <;> simp_all
    · rfl

theorem postingsRowStep_malformed (terms : List (String × (Int × ℚ)))
    (acc : List (String × List SPosting)) (line : String)
    (h : postingsRowMalformed line = true) : postingsRowStep terms acc line = acc := by
  unfold postingsRowStep
  unfold postingsRowMalformed at h
  by_cases hb : stripString line = ""
  · simp [hb]
  · simp only [hb, if_false]
    split
    · next t fld d tf heq =>
      rw [heq] at h
      simp at h
    · rfl

theorem docmetaRowStep_malformed (acc : List (String × SDocMeta)) (line : String)
    (h : docmetaRowMalformed line = true) : docmetaRowStep acc line = acc := by
  unfold docmetaRowStep
  unfold docmetaRowMalformed at h
  by_cases hb : stripString line = ""
  · simp [hb]
  · simp only [hb, if_false]
    split
    · next d u ti l1 l2 l3 rest heq =>
      rw [heq] at h
      cases h1 : parsePyInt l1 <;> cases h2 : parsePyInt l2 <;> cases h3 : parsePyInt l3 <;>
        simp_all
    · rfl

/-- Claim C8: index loading errors out when the directory or any of the three
required files is missing; an individual malformed row anywhere in any of the
three files is skipped without changing the loaded result (so it never aborts
the load); and when the document-metadata rows produce no documents after all
three files were read, loading fails fatally — otherwise it succeeds with the
three parsed structures. -/
theorem c8_loader_errors :
    (∀ t p d, loadIndex false t p d = Except.error LoadError.dirNotFound) ∧
    (∀ p d, loadIndex true none p d = Except.error (LoadError.missingFile ("terms.tsv"))) ∧
    (∀ h1 tr d, loadIndex true (some (h1 :: tr)) none d
      = Except.error (LoadError.missingFile ("postings.tsv"))) ∧
    (∀ h1 tr h2 pr, loadIndex true (some (h1 :: tr)) (some (h2 :: pr)) none
      = Except.error (LoadError.missingFile ("docmeta.tsv"))) ∧
    (∀ xs ys line, termsRowMalformed line = true →
      loadTermsRows (xs ++ line :: ys) = loadTermsRows (xs ++ ys)) ∧
    (∀ terms xs ys line, postingsRowMalformed line = true →
      loadPostingsRows terms (xs ++ line :: ys) = loadPostingsRows terms (xs ++ ys)) ∧
    (∀ xs ys line, docmetaRowMalformed line = true →
      loadDocmetaRows (xs ++ line :: ys) = loadDocmetaRows (xs ++ ys)) ∧
    (∀ h1 tr h2 pr h3 dr, loadDocmetaRows dr = [] →
      loadIndex true (some (h1 :: tr)) (some (h2 :: pr)) (some (h3 :: dr))
        = Except.error LoadError.noDocuments) ∧
    (∀ h1 tr h2 pr h3 dr, loadDocmetaRows dr ≠ [] →
      loadIndex true (some (h1 :: tr)) (some (h2 :: pr)) (some (h3 :: dr))
        = Except.ok ⟨loadTermsRows tr, loadPostingsRows (loadTermsRows tr) pr,
            loadDocmetaRows dr⟩) := by
  refine ⟨fun t p d => rfl, fun p d => rfl, fun h1 tr d => rfl, fun h1 tr h2 pr => rfl,
    ?_, ?_, ?_, ?_, ?_⟩
  · intro xs ys line h
    unfold loadTermsRows
    rw [List.foldl_append, List.foldl_append, List.foldl_cons,
      termsRowStep_malformed _ _ h]
  · intro terms xs ys line h
    unfold loadPostingsRows
    rw [List.foldl_append, List.foldl_append, List.foldl_cons,
      postingsRowStep_malformed _ _ _ h]
  · intro xs ys line h
    unfold loadDocmetaRows
    rw [List.foldl_append, List.foldl_append, List.foldl_cons,
      docmetaRowStep_malformed _ _ h]
  · intro h1 tr h2 pr h3 dr h
    simp [loadIndex, h]
  · intro h1 tr h2 pr h3 dr h
    simp [loadIndex, h]

/-- Witness for C8: concrete instances — missing directory, missing terms
file, a malformed (two-field) terms row leaving the parse unchanged, a
successful load from files with one good docmeta row, and the fatal
zero-document load. -/
theorem c8_loader_errors_witness :
    loadIndex false none none none = Except.error LoadError.dirNotFound ∧
    loadIndex true none none none = Except.error (LoadError.missingFile ("terms.tsv")) ∧
    loadTermsRows [("a\tb")] = loadTermsRows [] ∧
    loadIndex true (some [("h")]) (some [("h")]) (some [("h"), ("d\tu\tT\t1\t2\t3")])
      = Except.ok ⟨loadTermsRows [], loadPostingsRows (loadTermsRows []) [],
          loadDocmetaRows [("d\tu\tT\t1\t2\t3")]⟩ ∧
    loadIndex true (some [("h")]) (some [("h")]) (some [("h")])
      = Except.error LoadError.noDocuments := by
  refine ⟨c8_loader_errors.1 none none none, c8_loader_errors.2.1 none none,
    c8_loader_errors.2.2.2.2.1 [] [] ("a\tb") (by decide),
    c8_loader_errors.2.2.2.2.2.2.2.2 ("h") [] ("h") [] ("h")
      [("d\tu\tT\t1\t2\t3")] (by decide),
    c8_loader_errors.2.2.2.2.2.2.2.1 ("h") [] ("h") [] ("h") [] (by decide)⟩

/-! ## Claim C10 -/

theorem alistGet?_append_some {β : Type} (l1 l2 : List (String × β)) (k : String)
    (v : β) (h : alistGet? l1 k = some v) : alistGet? (l1 ++ l2) k = some v := by
  induction l1 with
  | nil => simp [alistGet?] at h
  | cons hd tl ih =>
    obtain ⟨kk, vv⟩ := hd
    by_cases hk : kk = k
    · subst hk
      simp [alistGet?] at h ⊢
      exact h
    · simp [alistGet?, hk] at h ⊢
      exact ih h

theorem alistGet?_append_none {β : Type} (l1 l2 : List (String × β)) (k : String)
    (h : alistGet? l1 k = none) : alistGet? (l1 ++ l2) k = alistGet? l2 k := by
  induction l1 with
  | nil => simp
  | cons hd tl ih =>
    obtain ⟨kk, vv⟩ := hd
    by_cases hk : kk = k
    · subst hk
      simp [alistGet?] at h
    · simp [alistGet?, hk] at h ⊢
      exact ih h

/-- The loaded-postings key invariant: every key with an entry in the postings
accumulator is a dictionary term. -/
def PostingKeysOk (terms : List (String × (Int × ℚ)))
    (acc : List (String × List SPosting)) : Prop :=
  ∀ t, (alistGet? acc t).isSome = true → (alistGet? terms t).isSome = true

theorem postingsRowStep_keys (terms : List (String × (Int × ℚ)))
    (acc : List (String × List SPosting)) (line : String)
    (h : PostingKeysOk terms acc) : PostingKeysOk terms (postingsRowStep terms acc line) := by
  intro t' hsome
  unfold postingsRowStep at hsome
  by_cases hb : stripString line = ""
  · exact h t' (by simpa [hb] using hsome)
  · simp only [hb, if_false] at hsome
    split at hsome
    · next t fld d tf heq =>
      by_cases hterm : (alistGet? terms t).isSome
      · simp only [hterm, if_true] at hsome
        cases htf : parsePyInt tf with
        | some n =>
          rw [htf] at hsome
          by_cases ht' : t' = t
          · subst ht'
            exact hterm
          · rw [alistGet?_appendTo_ne _ _ _ _ ht'] at hsome
            exact h t' hsome
        | none =>
          rw [htf] at hsome
          unfold ensureKey at hsome
          by_cases hk : (alistGet? acc t).isSome
          · simp only [hk, if_true] at hsome
            exact h t' hsome
          · simp only [hk, if_false, Bool.false_eq_true] at hsome
            cases hacc : alistGet? acc t' with
            | some v =>
              exact h t' (by simp [hacc])
            | none =>
              rw [alistGet?_append_none _ _ _ hacc] at hsome
              simp only [alistGet?] at hsome
              by_cases ht' : t = t'
              · subst ht'
                exact hterm
              · simp [ht'] at hsome
      · simp only [hterm, if_false] at hsome
        exact h t' hsome
    · exact h t' hsome

theorem loadPostingsRows_keys (terms : List (String × (Int × ℚ))) (rows : List String) :
    PostingKeysOk terms (loadPostingsRows terms rows) := by
  unfold loadPostingsRows
  exact foldl_preserve (PostingKeysOk terms) (postingsRowStep terms)
    (fun acc line hacc => postingsRowStep_keys terms acc line hacc) rows []
    (fun t hsome => by simp [alistGet?] at hsome)

theorem getD_nil_ne_isSome {β : Type} (o : Option (List β)) (h : o.getD [] ≠ []) :
    o.isSome = true := by
  cases o <;> simp_all

/-- Claim C10: after a successful index load, every term whose in-memory
postings list is non-empty is present in the loaded term dictionary —
postings rows for unknown terms are dropped during load. -/
theorem c10_postings_subset_terms (dirE : Bool) (tf pf df : Option (List String))
    (idx : SearchIndex) (h : loadIndex dirE tf pf df = Except.ok idx) (t : String)
    (hp : postingsOfS idx t ≠ []) : (alistGet? idx.terms t).isSome = true := by
  unfold loadIndex at h
  split at h
  · exact Except.noConfusion h
  · split at h
    · exact Except.noConfusion h
    · split at h
      · exact Except.noConfusion h
      · split at h
        · exact Except.noConfusion h
        · split at h
          · exact Except.noConfusion h
          · split at h
            · exact Except.noConfusion h
            · split at h
              · exact Except.noConfusion h
              · split at h
                · exact Except.noConfusion h
                · injection h with h2
                  subst h2
                  unfold postingsOfS at hp
                  exact loadPostingsRows_keys _ _ t (getD_nil_ne_isSome _ hp)

/-- Witness for C10 at a concrete successful load holding one posting for the
term `aa`. -/
theorem c10_postings_subset_terms_witness :
    (alistGet?
      (SearchIndex.terms
        ⟨loadTermsRows [("aa\t1\t0")],
         loadPostingsRows (loadTermsRows [("aa\t1\t0")]) [("aa\ttitle\td\t2")],
         loadDocmetaRows [("d\tu\tT\t1\t2\t3")]⟩) ("aa")).isSome = true :=
  c10_postings_subset_terms true (some [("h"), ("aa\t1\t0")])
    (some [("h"), ("aa\ttitle\td\t2")]) (some [("h"), ("d\tu\tT\t1\t2\t3")]) _
    rfl ("aa") (by decide)

/-! ## Claim C7 -/

theorem alistGet?_eq_none_iff {β : Type} (l : List (String × β)) (k : String) :
    alistGet? l k = none ↔ k ∉ l.map Prod.fst := by
  induction l with
  | nil => simp [alistGet?]
  | cons hd tl ih =>
    obtain ⟨kk, v⟩ := hd
    by_cases hk : kk = k
    · subst hk
      simp [alistGet?]
    · simp [alistGet?, hk, ih, Ne.symm hk]

theorem dictInsert_of_not_mem {β : Type} (l : List (String × β)) (k : String) (v : β)
    (h : k ∉ l.map Prod.fst) : dictInsert l k v = l ++ [(k, v)] := by
  induction l with
  | nil => rfl
  | cons hd tl ih =>
    obtain ⟨kk, vv⟩ := hd
    simp only [List.map_cons, List.mem_cons, not_or] at h
    obtain ⟨h1, h2⟩ := h
    simp [dictInsert, Ne.symm h1, ih h2]

theorem loadBatchGo_eq (ids : List String) (hids : ids.Nodup) (cs : Corpus) :
    ∀ acc : List (String × Recipe),
      (cs.map Prod.fst).Nodup →
      (acc.map Prod.fst).Nodup →
      (∀ k ∈ acc.map Prod.fst, k ∈ ids) →
      (∀ k ∈ cs.map Prod.fst, k ∉ acc.map Prod.fst) →
      loadBatchGo ids cs acc = acc ++ cs.filter (fun e => ids.contains e.1) := by
  induction cs with
  | nil =>
    intro acc _ _ _ _
    simp [loadBatchGo]
  | cons hd rest ih =>
    obtain ⟨i, r⟩ := hd
    intro acc hcs hacc hsub hdisj
    have hinotacc : i ∉ acc.map Prod.fst := hdisj i (by simp)
    have hrestdisj0 : ∀ k ∈ rest.map Prod.fst, k ∉ acc.map Prod.fst :=
      fun k hk => hdisj k (by simp [hk])
    simp only [List.map_cons, List.nodup_cons] at hcs
    obtain ⟨hresti, hrestnodup⟩ := hcs
    by_cases hc : ids.contains i = true
    · have hmem : i ∈ ids := by simpa using hc
      have hins : dictInsert acc i r = acc ++ [(i, r)] :=
        dictInsert_of_not_mem _ _ _ hinotacc
      have haccnew : ((acc ++ [(i, r)]).map Prod.fst).Nodup := by
        simp [List.nodup_append, hacc, hinotacc]
      have hsubnew : ∀ k ∈ (acc ++ [(i, r)]).map Prod.fst, k ∈ ids := by
        intro k hk
        simp only [List.map_append, List.mem_append, List.map_cons, List.map_nil,
          List.mem_cons, List.not_mem_nil, or_false] at hk
        rcases hk with hk | hk
        · exact hsub k hk
        · subst hk
          exact hmem
      have hfc : List.filter (fun e => ids.contains e.1) ((i, r) :: rest)
          = (i, r) :: List.filter (fun e => ids.contains e.1) rest :=
        List.filter_cons_of_pos hc
      simp only [loadBatchGo]
      rw [if_pos hc, hins]
      by_cases hlen : (acc ++ [(i, r)]).length = ids.length
      · rw [if_pos hlen, hfc]
        have hkeyslen : ((acc ++ [(i, r)]).map Prod.fst).length = ids.length := by
          simpa using hlen
        have hsetseq :
            ((acc ++ [(i, r)]).map Prod.fst).toFinset = ids.toFinset := by
          apply Finset.eq_of_subset_of_card_le
          · intro k hk
            simp only [List.mem_toFinset] at hk ⊢
            exact hsubnew k hk
          · rw [List.toFinset_card_of_nodup hids, List.toFinset_card_of_nodup haccnew,
              hkeyslen]
        have hrestnone : ∀ e ∈ rest, ¬(ids.contains e.1 = true) := by
          intro e he hcc
          have hein : e.1 ∈ ids := by simpa using hcc
          have hein' : e.1 ∈ ((acc ++ [(i, r)]).map Prod.fst).toFinset := by
            rw [hsetseq]
            simpa using hein
          simp only [List.mem_toFinset, List.map_append, List.mem_append,
            List.map_cons, List.map_nil, List.mem_cons, List.not_mem_nil,
            or_false] at hein'
          rcases hein' with hx | hx
          · exact hrestdisj0 e.1 (List.mem_map_of_mem Prod.fst he) hx
          · exact hresti (hx ▸ List.mem_map_of_mem Prod.fst he)
        have hfe : rest.filter (fun e => ids.contains e.1) = [] := by
          apply List.filter_eq_nil_iff.mpr
          intro e he
          exact hrestnone e he
        rw [hfe]
      · rw [if_neg hlen, hfc]
        rw [ih (acc ++ [(i, r)]) hrestnodup haccnew hsubnew ?_]
        · simp [List.append_assoc]
        · intro k hk
          simp only [List.map_append, List.mem_append, List.map_cons, List.map_nil,
            List.mem_cons, List.not_mem_nil, or_false]
          rintro (hx | hx)
          · exact hrestdisj0 k hk hx
          · exact hresti (hx ▸ hk)
    · have hfc : List.filter (fun e => ids.contains e.1) ((i, r) :: rest)
          = List.filter (fun e => ids.contains e.1) rest :=
        List.filter_cons_of_neg (by simpa using hc)
      simp only [loadBatchGo]
      rw [if_neg hc, hfc]
      exact ih acc hrestnodup hacc hsub hrestdisj0

theorem loadRecipesBatch_eq (corpus : Corpus) (ids : List String)
    (hc : (corpus.map Prod.fst).Nodup) (hi : ids.Nodup) :
    loadRecipesBatch corpus ids = corpus.filter (fun e => ids.contains e.1) := by
  unfold loadRecipesBatch
  simpa using loadBatchGo_eq ids hi corpus [] hc (by simp) (by simp) (by simp)

theorem alistGet?_filter_keep (corpus : Corpus) (p : String × Recipe → Bool) (d : String)
    (hd : ∀ v : Recipe, p (d, v) = true) :
    alistGet? (corpus.filter p) d = alistGet? corpus d := by
  induction corpus with
  | nil => simp
  | cons hd' tl ih =>
    obtain ⟨k, v⟩ := hd'
    by_cases hk : k = d
    · subst hk
      simp [List.filter_cons, hd v, alistGet?]
    · by_cases hp : p (k, v) <;> simp [List.filter_cons, hp, alistGet?, hk, ih]

theorem loadRecipesBatch_lookup (corpus : Corpus) (ids : List String) (d : String)
    (hc : (corpus.map Prod.fst).Nodup) (hi : ids.Nodup) (hd : ids.contains d = true) :
    alistGet? (loadRecipesBatch corpus ids) d = alistGet? corpus d := by
  rw [loadRecipesBatch_eq corpus ids hc hi]
  exact alistGet?_filter_keep corpus _ d (fun v => hd)

theorem chunksOfF_sublist {α : Type} (n : Nat) :
    ∀ (fuel : Nat) (l c : List α), c ∈ chunksOfF n fuel l → c.Sublist l
  | 0, l, c, h => by simp [chunksOfF] at h
  | fuel + 1, [], c, h => by simp [chunksOfF] at h
  | fuel + 1, x :: xs, c, h => by
    simp only [chunksOfF, List.mem_cons] at h
    rcases h with h | h
    · subst h
      exact List.take_sublist _ _
    · exact (chunksOfF_sublist n fuel _ c h).trans (List.drop_sublist _ _)

theorem chunksOfF_flatten {α : Type} (n : Nat) (hn : 0 < n) :
    ∀ (fuel : Nat) (l : List α), l.length ≤ fuel → (chunksOfF n fuel l).flatten = l
  | 0, l, h => by
    have hl : l = [] := List.length_eq_zero.mp (Nat.le_zero.mp h)
    subst hl
    simp [chunksOfF]
  | fuel + 1, [], _ => by simp [chunksOfF]
  | fuel + 1, x :: xs, h => by
    simp only [chunksOfF, List.flatten_cons]
    rw [chunksOfF_flatten n hn fuel ((x :: xs).drop n) ?_]
    · exact List.take_append_drop n (x :: xs)
    · simp only [List.length_drop, List.length_cons]
      simp only [List.length_cons] at h
      omega

theorem chunksOf_flatten {α : Type} (n : Nat) (hn : 0 < n) (l : List α) :
    (chunksOf n l).flatten = l :=
  chunksOfF_flatten n hn l.length l le_rfl

/-- The matches of a filter-only scan over an id list against a loaded record
map: those ids whose record is present and passes the filters, as result
triples.  With the whole corpus as the record map this is the mathematical
description of the scan, which the batched loops are proved to compute. -/
def loadedMatches (docmeta : List (String × SDocMeta)) (loaded : List (String × Recipe))
    (f : Filters) (ds : List String) : List SearchResult :=
  ds.filterMap fun d =>
    match alistGet? loaded d with
    | some r =>
      if applyFilters r f then some (d, Score.val 1, generateSnippet docmeta d [])
      else none
    | none => none

/-- Characterization of the generic filter-only scan, following the spec's
words: the candidates are the first 2000 metadata document ids, and a
candidate matches when its corpus record loads and passes the filters. -/
def specFilterScan (idx : SearchIndex) (corpus : Corpus) (f : Filters) :
    List SearchResult :=
  loadedMatches idx.docmeta corpus f ((idx.docmeta.map Prod.fst).take 2000)

theorem loadedMatches_congr (docmeta : List (String × SDocMeta))
    (l1 l2 : List (String × Recipe)) (f : Filters) (ds : List String)
    (h : ∀ d ∈ ds, alistGet? l1 d = alistGet? l2 d) :
    loadedMatches docmeta l1 f ds = loadedMatches docmeta l2 f ds := by
  induction ds with
  | nil => rfl
  | cons d ds ih =>
    simp only [loadedMatches, List.filterMap_cons] at ih ⊢
    rw [h d (by simp)]
    have := ih fun d' hd' => h d' (by simp [hd'])
    cases alistGet? l2 d with
    | none => simpa using this
    | some r => simp [this]

theorem loadedMatches_append (docmeta : List (String × SDocMeta))
    (loaded : List (String × Recipe)) (f : Filters) (ds1 ds2 : List String) :
    loadedMatches docmeta loaded f (ds1 ++ ds2)
      = loadedMatches docmeta loaded f ds1 ++ loadedMatches docmeta loaded f ds2 := by
  simp [loadedMatches, List.filterMap_append]

theorem innerScan_eq (docmeta : List (String × SDocMeta))
    (loaded : List (String × Recipe)) (f : Filters) :
    ∀ (ds : List String) (acc : List SearchResult), acc.length < 1000 →
      innerScan docmeta loaded f ds acc
        = (acc ++ loadedMatches docmeta loaded f ds).take 1000 := by
  intro ds
  induction ds with
  | nil =>
    intro acc h
    simp [innerScan, loadedMatches, List.take_of_length_le (le_of_lt h)]
  | cons d ds ih =>
    intro acc h
    cases hget : alistGet? loaded d with
    | none =>
      have hM : loadedMatches docmeta loaded f (d :: ds)
          = loadedMatches docmeta loaded f ds := by
        simp [loadedMatches, List.filterMap_cons, hget]
      have hI : innerScan docmeta loaded f (d :: ds) acc
          = innerScan docmeta loaded f ds acc := by
        simp [innerScan, hget]
      rw [hI, hM]
      exact ih acc h
    | some r =>
      by_cases hf : applyFilters r f
      · have hM : loadedMatches docmeta loaded f (d :: ds)
            = (d, Score.val 1, generateSnippet docmeta d [])
              :: loadedMatches docmeta loaded f ds := by
          simp [loadedMatches, List.filterMap_cons, hget, hf]
        have hI : innerScan docmeta loaded f (d :: ds) acc
            = if 1000 ≤ (acc ++ [(d, Score.val 1, generateSnippet docmeta d [])]).length then
                acc ++ [(d, Score.val 1, generateSnippet docmeta d [])]
              else innerScan docmeta loaded f ds
                (acc ++ [(d, Score.val 1, generateSnippet docmeta d [])]) := by
          simp [innerScan, hget, hf]
        rw [hI, hM]
        by_cases hlen : 1000 ≤ (acc ++ [(d, Score.val 1, generateSnippet docmeta d [])]).length
        · rw [if_pos hlen]
          have hlen' : (acc ++ [(d, Score.val 1, generateSnippet docmeta d [])]).length = 1000 := by
            simp only [List.length_append, List.length_cons, List.length_nil] at hlen ⊢
            omega
          rw [List.append_cons acc _ (loadedMatches docmeta loaded f ds),
            List.take_append_eq_append_take, hlen',
            List.take_of_length_le (le_of_eq hlen')]
          simp
        · rw [if_neg hlen]
          have hlt : (acc ++ [(d, Score.val 1, generateSnippet docmeta d [])]).length < 1000 := by
            omega
          rw [ih _ hlt, List.append_cons acc _ (loadedMatches docmeta loaded f ds)]
      · have hM : loadedMatches docmeta loaded f (d :: ds)
            = loadedMatches docmeta loaded f ds := by
          simp [loadedMatches, List.filterMap_cons, hget, hf]
        have hI : innerScan docmeta loaded f (d :: ds) acc
            = innerScan docmeta loaded f ds acc := by
          simp [innerScan, hget, hf]
        rw [hI, hM]
        exact ih acc h

theorem scanChunks_eq (docmeta : List (String × SDocMeta)) (corpus : Corpus) (f : Filters) :
    ∀ (chunks : List (List String)) (acc : List SearchResult),
      acc.length < 1000 →
      (∀ batch ∈ chunks, ∀ d ∈ batch,
        alistGet? (loadRecipesBatch corpus batch) d = alistGet? corpus d) →
      scanChunks docmeta corpus f chunks acc
        = (acc ++ loadedMatches docmeta corpus f chunks.flatten).take 1000 := by
  intro chunks
  induction chunks with
  | nil =>
    intro acc h _
    simp [scanChunks, loadedMatches, List.take_of_length_le (le_of_lt h)]
  | cons batch rest ih =>
    intro acc h hbatches
    have hbatch : ∀ d ∈ batch,
        alistGet? (loadRecipesBatch corpus batch) d = alistGet? corpus d :=
      hbatches batch (by simp)
    have hcongr : loadedMatches docmeta (loadRecipesBatch corpus batch) f batch
        = loadedMatches docmeta corpus f batch :=
      loadedMatches_congr _ _ _ _ _ hbatch
    have hinner : innerScan docmeta (loadRecipesBatch corpus batch) f batch acc
        = (acc ++ loadedMatches docmeta corpus f batch).take 1000 := by
      rw [innerScan_eq _ _ _ _ _ h, hcongr]
    simp only [scanChunks, hinner]
    by_cases hlen : 1000 ≤ ((acc ++ loadedMatches docmeta corpus f batch).take 1000).length
    · rw [if_pos hlen]
      have hge : 1000 ≤ (acc ++ loadedMatches docmeta corpus f batch).length := by
        simp only [List.length_take] at hlen
        omega
      have hz : 1000 - (acc ++ loadedMatches docmeta corpus f batch).length = 0 := by omega
      rw [List.flatten_cons, loadedMatches_append, ← List.append_assoc]
      conv_rhs => rw [List.take_append_eq_append_take]
      rw [hz, List.take_zero, List.append_nil]
    · rw [if_neg hlen]
      have hlt' : (acc ++ loadedMatches docmeta corpus f batch).length < 1000 := by
        simp only [List.length_take] at hlen
        omega
      have heq : (acc ++ loadedMatches docmeta corpus f batch).take 1000
          = acc ++ loadedMatches docmeta corpus f batch :=
        List.take_of_length_le (le_of_lt hlt')
      rw [heq, ih _ hlt' (fun bb hb => hbatches bb (by simp [hb])),
        List.flatten_cons, loadedMatches_append, List.append_assoc]

/-- Claim C7: the filter-only path.  On a non-empty filter set: a memoized
combination (keyed by the sorted item list) returns its cached result; a
cache miss with only time-bound keys streams the whole corpus in batches
(`filterByTimeOnly`) and caches; any other cache miss scans at most the first
2000 document ids, stops accumulating at 1000 matches — returning exactly the
first 1000 matches of `specFilterScan` sorted by document id, hence at most
1000 results — and caches the result under the sorted filter key. -/
theorem c7_filter_only_path (idx : SearchIndex) (corpus : Corpus) (st : SearcherState)
    (f : Filters) (hne : f ≠ []) :
    (∀ res, cacheGet? st.filterCache (sortedItems f) = some res →
      filterAllDocuments idx corpus st f = (res, st)) ∧
    (cacheGet? st.filterCache (sortedItems f) = none → onlyTimeFilters f = true →
      filterAllDocuments idx corpus st f
        = (filterByTimeOnly idx corpus f,
           ⟨st.filterCache ++ [(sortedItems f, filterByTimeOnly idx corpus f)]⟩)) ∧
    (cacheGet? st.filterCache (sortedItems f) = none → onlyTimeFilters f = false →
     (corpus.map Prod.fst).Nodup → (idx.docmeta.map Prod.fst).Nodup →
      filterAllDocuments idx corpus st f
        = (stableSort docIdLe ((specFilterScan idx corpus f).take 1000),
           ⟨st.filterCache ++
             [(sortedItems f, stableSort docIdLe ((specFilterScan idx corpus f).take 1000))]⟩) ∧
      (filterAllDocuments idx corpus st f).1.length ≤ 1000) := by
  have hE : f.isEmpty = false := by
    cases f with
    | nil => exact absurd rfl hne
    | cons a l => rfl
  refine ⟨?_, ?_, ?_⟩
  · intro res hres
    simp [filterAllDocuments, hE, hres]
  · intro hmiss htime
    simp [filterAllDocuments, hE, hmiss, htime]
  · intro hmiss htime hcorpus hmeta
    have hids : ((idx.docmeta.map Prod.fst).take 2000).Nodup :=
      (List.take_sublist _ _).nodup hmeta
    have hscan : scanChunks idx.docmeta corpus f
        (chunksOf 500 ((idx.docmeta.map Prod.fst).take 2000)) []
        = (specFilterScan idx corpus f).take 1000 := by
      rw [scanChunks_eq idx.docmeta corpus f _ [] (by simp) ?_]
      · rw [chunksOf_flatten 500 (by norm_num)]
        simp [specFilterScan]
      · intro batch hb d hd
        have hbn : batch.Nodup := (chunksOfF_sublist 500 _ _ _ hb).nodup hids
        exact loadRecipesBatch_lookup corpus batch d hcorpus hbn (by simpa using hd)
    constructor
    · simp only [filterAllDocuments, hE, Bool.false_eq_true, if_false, hmiss, htime]
      rw [hscan]
    · simp only [filterAllDocuments, hE, Bool.false_eq_true, if_false, hmiss, htime]
      rw [hscan, length_stableSort]
      simp [List.length_take]

/-- Witness for C7 at a concrete cache miss with the non-time filter
`{min_rating: 0}` over the one-document demonstration corpus. -/
theorem c7_filter_only_path_witness :
    filterAllDocuments demoIdx demoCorpus st0 [("min_rating", FVal.num 0)]
      = (stableSort docIdLe
          ((specFilterScan demoIdx demoCorpus [("min_rating", FVal.num 0)]).take 1000),
         ⟨st0.filterCache ++
           [(sortedItems [("min_rating", FVal.num 0)],
             stableSort docIdLe
               ((specFilterScan demoIdx demoCorpus [("min_rating", FVal.num 0)]).take 1000))]⟩) ∧
    (filterAllDocuments demoIdx demoCorpus st0 [("min_rating", FVal.num 0)]).1.length ≤ 1000 :=
  (c7_filter_only_path demoIdx demoCorpus st0 [("min_rating", FVal.num 0)]
    (by decide)).2.2 (by decide) (by decide) (by decide) (by decide)

/-! ## Claims C3 and C4: scoring-loop characterizations -/

/-- Well-formedness of a loaded index as the scorers need it: every posting
names one of the three fields (so the `field_weights` lookup cannot raise)
and a document with stored metadata (so the BM25 length lookup cannot
raise).  Indexes produced by the builder satisfy this. -/
def WFIndex (idx : SearchIndex) : Prop :=
  ∀ e ∈ idx.postings, ∀ p ∈ e.2,
    (alistGet? idx.docmeta p.docId).isSome = true ∧ (fieldWeight? p.field).isSome = true

theorem alistGet?_mem {β : Type} (l : List (String × β)) (t : String) (v : β)
    (h : alistGet? l t = some v) : (t, v) ∈ l := by
  induction l with
  | nil => simp [alistGet?] at h
  | cons hd tl ih =>
    obtain ⟨k, w⟩ := hd
    by_cases hk : k = t
    · subst hk
      have h' : w = v := by simpa [alistGet?] using h
      subst h'
      simp
    · simp only [alistGet?, hk, if_false] at h
      simp [ih h]

theorem wfIndex_postings (idx : SearchIndex) (h : WFIndex idx) (t : String) :
    ∀ p ∈ postingsOfS idx t,
      (alistGet? idx.docmeta p.docId).isSome = true ∧ (fieldWeight? p.field).isSome = true := by
  intro p hp
  unfold postingsOfS at hp
  cases hg : alistGet? idx.postings t with
  | none => simp [hg] at hp
  | some ps => exact h (t, ps) (alistGet?_mem _ _ _ hg) p (by simpa [hg] using hp)

theorem applyFiltersDoc_empty (corpus : Corpus) (d : String) :
    applyFiltersDoc corpus d [] = true := rfl

theorem addScore_keys_mem (acc : List (String × ℚ)) (d : String) (v : ℚ) (d' : String) :
    d' ∈ (addScore acc d v).map Prod.fst ↔ d' ∈ acc.map Prod.fst ∨ d' = d := by
  induction acc with
  | nil => simp [addScore]
  | cons hd tl ih =>
    obtain ⟨k, s⟩ := hd
    by_cases hk : k = d
    · subst hk
      simp [addScore]
      tauto
    · simp [addScore, hk, ih]
      tauto

theorem addScore_keys_nodup (acc : List (String × ℚ)) (d : String) (v : ℚ)
    (h : (acc.map Prod.fst).Nodup) : ((addScore acc d v).map Prod.fst).Nodup := by
  induction acc with
  | nil => simp [addScore]
  | cons hd tl ih =>
    obtain ⟨k, s⟩ := hd
    simp only [List.map_cons, List.nodup_cons] at h
    by_cases hk : k = d
    · subst hk
      simp [addScore, List.nodup_cons, h.1, h.2]
    · simp only [addScore, hk, if_false, List.map_cons, List.nodup_cons]
      refine ⟨?_, ih h.2⟩
      simp only [addScore_keys_mem]
      rintro (hx | hx)
      · exact h.1 hx
      · exact hk hx

theorem bm25Postings_chars (docmeta : List (String × SDocMeta)) (corpus : Corpus)
    (f : Filters) (avg idf : ℚ) :
    ∀ (ps : List SPosting) (acc : List (String × ℚ)),
      (∀ p ∈ ps, (alistGet? docmeta p.docId).isSome = true ∧
        (fieldWeight? p.field).isSome = true) →
      ∃ sc, bm25Postings docmeta corpus f avg idf ps acc = some sc ∧
        (∀ d, d ∈ sc.map Prod.fst ↔
          (d ∈ acc.map Prod.fst ∨
            ∃ p ∈ ps, p.docId = d ∧ applyFiltersDoc corpus d f = true)) ∧
        ((acc.map Prod.fst).Nodup → (sc.map Prod.fst).Nodup) := by
  intro ps
  induction ps with
  | nil =>
    intro acc _
    exact ⟨acc, rfl, by simp, id⟩
  | cons p ps ih =>
    intro acc hwf
    have hp := hwf p (by simp)
    obtain ⟨m, hm⟩ := Option.isSome_iff_exists.mp hp.1
    obtain ⟨w, hw⟩ := Option.isSome_iff_exists.mp hp.2
    by_cases hpred : applyFiltersDoc corpus p.docId f = true
    · obtain ⟨sc, hsc, hchar, hnd⟩ :=
        ih (addScore acc p.docId
          (bm25TermScore (p.tf : ℚ) ((docLengthFor m p.field : Int) : ℚ) avg idf w))
          (fun p' hp' => hwf p' (by simp [hp']))
      refine ⟨sc, ?_, ?_, ?_⟩
      · simp [bm25Postings, hpred, hm, hw, hsc]
      · intro d
        rw [hchar d, addScore_keys_mem]
        constructor
        · rintro ((hx | hx) | hx)
          · exact Or.inl hx
          · exact Or.inr ⟨p, by simp, hx.symm, by rw [hx]; exact hpred⟩
          · obtain ⟨p', hp', hd, hpass⟩ := hx
            exact Or.inr ⟨p', by simp [hp'], hd, hpass⟩
        · rintro (hx | hx)
          · exact Or.inl (Or.inl hx)
          · obtain ⟨p', hp', hd, hpass⟩ := hx
            rcases List.mem_cons.mp hp' with hpp | hpp
            · exact Or.inl (Or.inr (hpp ▸ hd).symm)
            · exact Or.inr ⟨p', hpp, hd, hpass⟩
      · intro hnod
        exact hnd (addScore_keys_nodup _ _ _ hnod)
    · obtain ⟨sc, hsc, hchar, hnd⟩ := ih acc (fun p' hp' => hwf p' (by simp [hp']))
      refine ⟨sc, ?_, ?_, hnd⟩
      · have hpredf : applyFiltersDoc corpus p.docId f = false := by
          cases hb : applyFiltersDoc corpus p.docId f
          · rfl
          · exact absurd hb hpred
        simp [bm25Postings, hpredf, hsc]
      · intro d
        rw [hchar d]
        constructor
        · rintro (hx | hx)
          · exact Or.inl hx
          · obtain ⟨p', hp', hd, hpass⟩ := hx
            exact Or.inr ⟨p', by simp [hp'], hd, hpass⟩
        · rintro (hx | hx)
          · exact Or.inl hx
          · obtain ⟨p', hp', hd, hpass⟩ := hx
            rcases List.mem_cons.mp hp' with hpp | hpp
            · subst hpp
              subst hd
              exact absurd hpass hpred
            · exact Or.inr ⟨p', hpp, hd, hpass⟩

theorem bm25Terms_chars (idx : SearchIndex) (corpus : Corpus) (f : Filters) (avg : ℚ)
    (hwf : WFIndex idx) :
    ∀ (qtf : List (String × Nat)) (acc : List (String × ℚ)),
      ∃ sc, bm25Terms idx corpus f avg qtf acc = some sc ∧
        (∀ d, d ∈ sc.map Prod.fst ↔
          (d ∈ acc.map Prod.fst ∨
            ∃ tq ∈ qtf, (alistGet? idx.terms tq.1).isSome = true ∧
              ∃ p ∈ postingsOfS idx tq.1,
                p.docId = d ∧ applyFiltersDoc corpus d f = true)) ∧
        ((acc.map Prod.fst).Nodup → (sc.map Prod.fst).Nodup) := by
  intro qtf
  induction qtf with
  | nil =>
    intro acc
    exact ⟨acc, rfl, by simp, id⟩
  | cons tq rest ih =>
    intro acc
    obtain ⟨t, qn⟩ := tq
    cases hterm : alistGet? idx.terms t with
    | none =>
      obtain ⟨sc, hsc, hchar, hnd⟩ := ih acc
      refine ⟨sc, by simp [bm25Terms, hterm, hsc], ?_, hnd⟩
      intro d
      rw [hchar d]
      constructor
      · rintro (hx | hx)
        · exact Or.inl hx
        · obtain ⟨tq', htq', hsome, hrest⟩ := hx
          exact Or.inr ⟨tq', by simp [htq'], hsome, hrest⟩
      · rintro (hx | hx)
        · exact Or.inl hx
        · obtain ⟨tq', htq', hsome, hrest⟩ := hx
          rcases List.mem_cons.mp htq' with htt | htt
          · exfalso
            rw [htt] at hsome
            simp [hterm] at hsome
          · exact Or.inr ⟨tq', htt, hsome, hrest⟩
    | some dfidf =>
      obtain ⟨df, idf⟩ := dfidf
      obtain ⟨sc1, hsc1, hchar1, hnd1⟩ :=
        bm25Postings_chars idx.docmeta corpus f avg idf (postingsOfS idx t) acc
          (wfIndex_postings idx hwf t)
      obtain ⟨sc, hsc, hchar, hnd⟩ := ih sc1
      refine ⟨sc, by simp [bm25Terms, hterm, hsc1, hsc], ?_, fun hn => hnd (hnd1 hn)⟩
      intro d
      rw [hchar d, hchar1 d]
      constructor
      · rintro ((hx | hx) | hx)
        · exact Or.inl hx
        · obtain ⟨p, hp, hd, hpass⟩ := hx
          exact Or.inr ⟨(t, qn), by simp, by simp [hterm], p, hp, hd, hpass⟩
        · obtain ⟨tq', htq', hsome, hrest⟩ := hx
          exact Or.inr ⟨tq', by simp [htq'], hsome, hrest⟩
      · rintro (hx | hx)
        · exact Or.inl (Or.inl hx)
        · obtain ⟨tq', htq', hsome, p, hp, hd, hpass⟩ := hx
          rcases List.mem_cons.mp htq' with htt | htt
          · subst htt
            exact Or.inl (Or.inr ⟨p, hp, hd, hpass⟩)
          · exact Or.inr ⟨tq', htt, hsome, p, hp, hd, hpass⟩

/-! ### TF-IDF accumulator lemmas -/

theorem alistGet?_addPair_self (acc : List (String × (ℚ × ℚ))) (d : String) (v : ℚ × ℚ) :
    alistGet? (addPair acc d v) d
      = some (((alistGet? acc d).getD (0, 0)).1 + v.1,
              ((alistGet? acc d).getD (0, 0)).2 + v.2) := by
  induction acc with
  | nil => simp [addPair, alistGet?]
  | cons hd tl ih =>
    obtain ⟨k, s⟩ := hd
    by_cases hk : k = d
    · subst hk
      simp [addPair, alistGet?]
    · simp [addPair, alistGet?, hk, ih]

theorem alistGet?_addPair_ne (acc : List (String × (ℚ × ℚ))) (d : String) (v : ℚ × ℚ)
    (d' : String) (h : d' ≠ d) : alistGet? (addPair acc d v) d' = alistGet? acc d' := by
  induction acc with
  | nil => simp [addPair, alistGet?, Ne.symm h]
  | cons hd tl ih =>
    obtain ⟨k, s⟩ := hd
    by_cases hk : k = d
    · subst hk
      simp [addPair, alistGet?, Ne.symm h]
    · simp [addPair, alistGet?, hk, ih]

theorem addPair_keys_mem (acc : List (String × (ℚ × ℚ))) (d : String) (v : ℚ × ℚ)
    (d' : String) :
    d' ∈ (addPair acc d v).map Prod.fst ↔ d' ∈ acc.map Prod.fst ∨ d' = d := by
  induction acc with
  | nil => simp [addPair]
  | cons hd tl ih =>
    obtain ⟨k, s⟩ := hd
    by_cases hk : k = d
    · have hstep : addPair ((k, s) :: tl) d v = (k, (s.1 + v.1, s.2 + v.2)) :: tl := by
        simp [addPair, hk]
      rw [hstep]
      simp only [List.map_cons, List.mem_cons]
      rw [hk]
      tauto
    · have hstep : addPair ((k, s) :: tl) d v = (k, s) :: addPair tl d v := by
        simp [addPair, hk]
      rw [hstep]
      simp only [List.map_cons, List.mem_cons, ih]
      tauto

theorem addPair_keys_nodup (acc : List (String × (ℚ × ℚ))) (d : String) (v : ℚ × ℚ)
    (h : (acc.map Prod.fst).Nodup) : ((addPair acc d v).map Prod.fst).Nodup := by
  induction acc with
  | nil => simp [addPair]
  | cons hd tl ih =>
    obtain ⟨k, s⟩ := hd
    simp only [List.map_cons, List.nodup_cons] at h
    by_cases hk : k = d
    · subst hk
      simp [addPair, List.nodup_cons, h.1, h.2]
    · simp only [addPair, hk, if_false, List.map_cons, List.nodup_cons]
      refine ⟨?_, ih h.2⟩
      simp only [addPair_keys_mem]
      rintro (hx | hx)
      · exact h.1 hx
      · exact hk hx

/-- Simulation relation between the paired TF-IDF accumulators of a filtered
run and of the unfiltered run over the same postings: every filtered entry
exists unfiltered with at least the filtered squared magnitude, and all
squared magnitudes are nonnegative. -/
def TfRel (accF accU : List (String × (ℚ × ℚ))) : Prop :=
  (∀ d vF, alistGet? accF d = some vF → ∃ vU, alistGet? accU d = some vU ∧ vF.2 ≤ vU.2) ∧
  (∀ d vF, alistGet? accF d = some vF → 0 ≤ vF.2) ∧
  (∀ d vU, alistGet? accU d = some vU → 0 ≤ vU.2)

theorem tfRel_addPair_both (accF accU : List (String × (ℚ × ℚ))) (d : String)
    (v : ℚ × ℚ) (hv : 0 ≤ v.2) (h : TfRel accF accU) :
    TfRel (addPair accF d v) (addPair accU d v) := by
  obtain ⟨h1, h2, h3⟩ := h
  have hUd : 0 ≤ ((alistGet? accU d).getD (0, 0)).2 := by
    cases hu : alistGet? accU d with
    | none => simp
    | some vu => simpa using h3 d vu hu
  have hFd : 0 ≤ ((alistGet? accF d).getD (0, 0)).2 := by
    cases hu : alistGet? accF d with
    | none => simp
    | some vf => simpa using h2 d vf hu
  have hFU : ((alistGet? accF d).getD (0, 0)).2 ≤ ((alistGet? accU d).getD (0, 0)).2 := by
    cases hfd : alistGet? accF d with
    | none => simpa using hUd
    | some vf =>
      obtain ⟨vu, hvu, hle⟩ := h1 d vf hfd
      simpa [hvu] using hle
  refine ⟨?_, ?_, ?_⟩
  · intro d' vF hF
    by_cases hd' : d' = d
    · subst hd'
      rw [alistGet?_addPair_self] at hF
      refine ⟨_, alistGet?_addPair_self accU d' v, ?_⟩
      have := hF.symm
      injection hF with hF2
      subst hF2
      simpa using add_le_add_right hFU v.2
    · rw [alistGet?_addPair_ne _ _ _ _ hd'] at hF
      obtain ⟨vU, hvU, hle⟩ := h1 d' vF hF
      exact ⟨vU, by rwa [alistGet?_addPair_ne _ _ _ _ hd'], hle⟩
  · intro d' vF hF
    by_cases hd' : d' = d
    · subst hd'
      rw [alistGet?_addPair_self] at hF
      injection hF with hF2
      subst hF2
      simpa using add_nonneg hFd hv
    · rw [alistGet?_addPair_ne _ _ _ _ hd'] at hF
      exact h2 d' vF hF
  · intro d' vU hU
    by_cases hd' : d' = d
    · subst hd'
      rw [alistGet?_addPair_self] at hU
      injection hU with hU2
      subst hU2
      simpa using add_nonneg hUd hv
    · rw [alistGet?_addPair_ne _ _ _ _ hd'] at hU
      exact h3 d' vU hU

theorem tfRel_addPair_right (accF accU : List (String × (ℚ × ℚ))) (d : String)
    (v : ℚ × ℚ) (hv : 0 ≤ v.2) (h : TfRel accF accU) :
    TfRel accF (addPair accU d v) := by
  obtain ⟨h1, h2, h3⟩ := h
  have hUd : 0 ≤ ((alistGet? accU d).getD (0, 0)).2 := by
    cases hu : alistGet? accU d with
    | none => simp
    | some vu => simpa using h3 d vu hu
  refine ⟨?_, h2, ?_⟩
  · intro d' vF hF
    by_cases hd' : d' = d
    · subst hd'
      obtain ⟨vU, hvU, hle⟩ := h1 d' vF hF
      refine ⟨_, alistGet?_addPair_self accU d' v, ?_⟩
      have : ((alistGet? accU d').getD (0, 0)).2 = vU.2 := by simp [hvU]
      rw [this]
      have hv2 : vF.2 ≤ vU.2 + v.2 := le_add_of_le_of_nonneg hle hv
      simpa using hv2
    · obtain ⟨vU, hvU, hle⟩ := h1 d' vF hF
      exact ⟨vU, by rwa [alistGet?_addPair_ne _ _ _ _ hd'], hle⟩
  · intro d' vU hU
    by_cases hd' : d' = d
    · subst hd'
      rw [alistGet?_addPair_self] at hU
      injection hU with hU2
      subst hU2
      simpa using add_nonneg hUd hv
    · rw [alistGet?_addPair_ne _ _ _ _ hd'] at hU
      exact h3 d' vU hU

theorem tfidfPostings_sim (corpus : Corpus) (f : Filters) (idf qw : ℚ) :
    ∀ (ps : List SPosting) (accF accU : List (String × (ℚ × ℚ))),
      (∀ p ∈ ps, (fieldWeight? p.field).isSome = true) →
      TfRel accF accU →
      ∃ scF scU, tfidfPostings corpus f idf qw ps accF = some scF ∧
        tfidfPostings corpus [] idf qw ps accU = some scU ∧ TfRel scF scU := by
  intro ps
  induction ps with
  | nil =>
    intro accF accU _ h
    exact ⟨accF, accU, rfl, rfl, h⟩
  | cons p ps ih =>
    intro accF accU hwf h
    obtain ⟨w, hw⟩ := Option.isSome_iff_exists.mp (hwf p (by simp))
    have hwrest : ∀ p' ∈ ps, (fieldWeight? p'.field).isSome = true :=
      fun p' hp' => hwf p' (by simp [hp'])
    have hsq : (0 : ℚ) ≤ (((p.tf : ℚ) * idf * w) ^ 2) := sq_nonneg _
    by_cases hpred : applyFiltersDoc corpus p.docId f = true
    · obtain ⟨scF, scU, hF, hU, hrel⟩ :=
        ih (addPair accF p.docId (qw * ((p.tf : ℚ) * idf * w), ((p.tf : ℚ) * idf * w) ^ 2))
          (addPair accU p.docId (qw * ((p.tf : ℚ) * idf * w), ((p.tf : ℚ) * idf * w) ^ 2))
          hwrest (tfRel_addPair_both _ _ _ _ hsq h)
      exact ⟨scF, scU, by simp [tfidfPostings, hpred, hw, hF],
        by simp [tfidfPostings, applyFiltersDoc_empty, hw, hU], hrel⟩
    · have hpredf : applyFiltersDoc corpus p.docId f = false := by
        cases hb : applyFiltersDoc corpus p.docId f
        · rfl
        · exact absurd hb hpred
      obtain ⟨scF, scU, hF, hU, hrel⟩ :=
        ih accF
          (addPair accU p.docId (qw * ((p.tf : ℚ) * idf * w), ((p.tf : ℚ) * idf * w) ^ 2))
          hwrest (tfRel_addPair_right _ _ _ _ hsq h)
      exact ⟨scF, scU, by simp [tfidfPostings, hpredf, hF],
        by simp [tfidfPostings, applyFiltersDoc_empty, hw, hU], hrel⟩

theorem tfidfTerms_sim (idx : SearchIndex) (corpus : Corpus) (f : Filters)
    (hwf : WFIndex idx) :
    ∀ (qtf : List (String × Nat)) (accF accU : List (String × (ℚ × ℚ))),
      TfRel accF accU →
      ∃ scF scU, tfidfTerms idx corpus f qtf accF = some scF ∧
        tfidfTerms idx corpus [] qtf accU = some scU ∧ TfRel scF scU := by
  intro qtf
  induction qtf with
  | nil =>
    intro accF accU h
    exact ⟨accF, accU, rfl, rfl, h⟩
  | cons tq rest ih =>
    intro accF accU h
    obtain ⟨t, qn⟩ := tq
    cases hterm : alistGet? idx.terms t with
    | none =>
      obtain ⟨scF, scU, hF, hU, hrel⟩ := ih accF accU h
      exact ⟨scF, scU, by simp [tfidfTerms, hterm, hF],
        by simp [tfidfTerms, hterm, hU], hrel⟩
    | some dfidf =>
      obtain ⟨df, idf⟩ := dfidf
      obtain ⟨scF1, scU1, hF1, hU1, hrel1⟩ :=
        tfidfPostings_sim corpus f idf ((qn : ℚ) * idf) (postingsOfS idx t) accF accU
          (fun p hp => (wfIndex_postings idx hwf t p hp).2) h
      obtain ⟨scF, scU, hF, hU, hrel⟩ := ih scF1 scU1 hrel1
      exact ⟨scF, scU, by simp [tfidfTerms, hterm, hF1, hF],
        by simp [tfidfTerms, hterm, hU1, hU], hrel⟩

theorem tfidfPostings_nodup (corpus : Corpus) (f : Filters) (idf qw : ℚ) :
    ∀ (ps : List SPosting) (acc : List (String × (ℚ × ℚ))) (sc : List (String × (ℚ × ℚ))),
      tfidfPostings corpus f idf qw ps acc = some sc →
      (acc.map Prod.fst).Nodup → (sc.map Prod.fst).Nodup := by
  intro ps
  induction ps with
  | nil =>
    intro acc sc h hn
    cases h
    exact hn
  | cons p ps ih =>
    intro acc sc h hn
    by_cases hpred : applyFiltersDoc corpus p.docId f = true
    · cases hw : fieldWeight? p.field with
      | none => simp [tfidfPostings, hpred, hw] at h
      | some w =>
        simp only [tfidfPostings, hpred, if_true, hw] at h
        exact ih _ _ h (addPair_keys_nodup _ _ _ hn)
    · have hpredf : applyFiltersDoc corpus p.docId f = false := by
        cases hb : applyFiltersDoc corpus p.docId f
        · rfl
        · exact absurd hb hpred
      simp only [tfidfPostings, hpredf, Bool.false_eq_true, if_false] at h
      exact ih _ _ h hn

theorem tfidfTerms_nodup (idx : SearchIndex) (corpus : Corpus) (f : Filters) :
    ∀ (qtf : List (String × Nat)) (acc sc : List (String × (ℚ × ℚ))),
      tfidfTerms idx corpus f qtf acc = some sc →
      (acc.map Prod.fst).Nodup → (sc.map Prod.fst).Nodup := by
  intro qtf
  induction qtf with
  | nil =>
    intro acc sc h hn
    cases h
    exact hn
  | cons tq rest ih =>
    intro acc sc h hn
    obtain ⟨t, qn⟩ := tq
    cases hterm : alistGet? idx.terms t with
    | none =>
      simp only [tfidfTerms, hterm] at h
      exact ih _ _ h hn
    | some dfidf =>
      obtain ⟨df, idf⟩ := dfidf
      simp only [tfidfTerms, hterm] at h
      cases hps : tfidfPostings corpus f idf ((qn : ℚ) * idf) (postingsOfS idx t) acc with
      | none => rw [hps] at h; exact absurd h (by simp)
      | some acc1 =>
        rw [hps] at h
        exact ih _ _ h (tfidfPostings_nodup corpus f idf _ _ _ _ hps hn)

theorem mem_iff_lookup_of_nodup {β : Type} (l : List (String × β))
    (h : (l.map Prod.fst).Nodup) (d : String) (v : β) :
    (d, v) ∈ l ↔ alistGet? l d = some v := by
  induction l with
  | nil => simp [alistGet?]
  | cons hd tl ih =>
    obtain ⟨k, w⟩ := hd
    simp only [List.map_cons, List.nodup_cons] at h
    by_cases hk : k = d
    · have hlook : alistGet? ((k, w) :: tl) d = some w := by simp [alistGet?, hk]
      rw [hlook]
      simp only [List.mem_cons, Prod.mk.injEq, Option.some.injEq]
      rw [hk] at h
      constructor
      · rintro (⟨_, hv⟩ | hmem)
        · exact hv.symm
        · exact absurd (List.mem_map_of_mem Prod.fst hmem) h.1
      · intro hv
        exact Or.inl ⟨hk.symm, hv.symm⟩
    · have hlook : alistGet? ((k, w) :: tl) d = alistGet? tl d := by
        simp [alistGet?, hk]
      rw [hlook, ← ih h.2]
      simp only [List.mem_cons, Prod.mk.injEq]
      constructor
      · rintro (⟨hd', _⟩ | hmem)
        · exact absurd hd'.symm hk
        · exact hmem
      · exact Or.inr

theorem mem_tfidf_results (docmeta : List (String × SDocMeta))
    (pairs : List (String × (ℚ × ℚ))) (qterms : List String) (d : String) :
    (d ∈ (pairs.filterMap fun dp =>
        if 0 < dp.2.2 then
          some (dp.1, Score.cos dp.2.1 dp.2.2, generateSnippet docmeta dp.1 qterms)
        else none).map Prod.fst)
      ↔ ∃ s m, (d, (s, m)) ∈ pairs ∧ 0 < m := by
  rw [List.mem_map]
  constructor
  · rintro ⟨res, hres, hfst⟩
    rw [List.mem_filterMap] at hres
    obtain ⟨dp, hdp, heq⟩ := hres
    by_cases hpos : 0 < dp.2.2
    · rw [if_pos hpos] at heq
      injection heq with h1
      rw [← h1] at hfst
      simp only at hfst
      refine ⟨dp.2.1, dp.2.2, ?_, hpos⟩
      rw [← hfst]
      simpa using hdp
    · rw [if_neg hpos] at heq
      exact absurd heq (by simp)
  · rintro ⟨s, m, hmem, hpos⟩
    refine ⟨(d, Score.cos s m, generateSnippet docmeta d qterms), ?_, rfl⟩
    rw [List.mem_filterMap]
    exact ⟨(d, (s, m)), hmem, by simp [hpos]⟩

/-! ### Claim C3 -/

/-- Claim C3 counterexample: for the empty query (no usable query terms) the
unfiltered search returns nothing while the filtered search returns document
d1, so the unfiltered result set is not a superset of the filtered one at the
same offset and limit. -/
theorem c3_superset_counterexample :
    (searchBM25 demoIdx demoCorpus st0 ("") 10 [] 0).1 = [] ∧
    ("d1") ∈ ((searchBM25 demoIdx demoCorpus st0 ("") 10
      [("max_total_minutes", FVal.num 60)] 0).1.map Prod.fst) ∧
    ("d1") ∉ ((searchBM25 demoIdx demoCorpus st0 ("") 10 [] 0).1.map Prod.fst) := by
  refine ⟨by decide, by decide, by decide⟩

/-- Claim C3, amended: for queries with at least one usable token, on a
well-formed index, and comparing the full (unpaginated) result lists, the
document ids returned without filters are a superset of those returned with
any filter set F, for both metrics.  (The original claim fails for empty
queries — the filters-only path returns documents while the unfiltered empty
query returns nothing — and under pagination, where the two pages can be
disjoint.) -/
theorem c3_superset_unpaginated (idx : SearchIndex) (corpus : Corpus)
    (st : SearcherState) (q : String) (F : Filters)
    (hq : tokenize q ≠ []) (hwf : WFIndex idx) :
    (∀ d, d ∈ (searchBM25Full idx corpus st q F).1.map Prod.fst →
      d ∈ (searchBM25Full idx corpus st q []).1.map Prod.fst) ∧
    (∀ d, d ∈ (searchTFIDFFull idx corpus st q F).1.map Prod.fst →
      d ∈ (searchTFIDFFull idx corpus st q []).1.map Prod.fst) := by
  have hqe : (tokenize q).isEmpty = false := by
    cases hqq : tokenize q with
    | nil => exact absurd hqq hq
    | cons a l => rfl
  constructor
  · intro d hd
    by_cases htot : totalDocsS idx = 0
    · simp [searchBM25Full, hqe, htot] at hd
    · by_cases havg : ((sumLens idx : ℚ) / (totalDocsS idx : ℚ)) = 0
      · simp [searchBM25Full, hqe, htot, havg] at hd
      · obtain ⟨scF, hscF, hcharF, _⟩ :=
          bm25Terms_chars idx corpus F ((sumLens idx : ℚ) / (totalDocsS idx : ℚ)) hwf
            (queryTf (tokenize q)) []
        obtain ⟨scU, hscU, hcharU, _⟩ :=
          bm25Terms_chars idx corpus [] ((sumLens idx : ℚ) / (totalDocsS idx : ℚ)) hwf
            (queryTf (tokenize q)) []
        simp only [searchBM25Full, hqe, Bool.false_eq_true, if_false, htot, havg,
          hscF] at hd
        simp only [searchBM25Full, hqe, Bool.false_eq_true, if_false, htot, havg, hscU]
        have hdF : d ∈ scF.map Prod.fst := by
          have hperm := (stableSort_perm scoreGeB
            (scF.map fun ds => (ds.1, Score.val ds.2,
              generateSnippet idx.docmeta ds.1 (tokenize q)))).map Prod.fst
          rw [hperm.mem_iff] at hd
          simpa [List.map_map, Function.comp] using hd
        have hdU : d ∈ scU.map Prod.fst := by
          rw [hcharU d]
          rcases (hcharF d).mp hdF with hx | hx
          · simp at hx
          · obtain ⟨tq, htq, hsome, p, hp, hdd, _⟩ := hx
            exact Or.inr ⟨tq, htq, hsome, p, hp, hdd, applyFiltersDoc_empty corpus d⟩
        have hperm := (stableSort_perm scoreGeB
          (scU.map fun ds => (ds.1, Score.val ds.2,
            generateSnippet idx.docmeta ds.1 (tokenize q)))).map Prod.fst
        rw [hperm.mem_iff]
        simpa [List.map_map, Function.comp] using hdU
  · intro d hd
    by_cases hmag : qMagSq idx (queryTf (tokenize q)) = 0
    · simp [searchTFIDFFull, hqe, hmag] at hd
    · obtain ⟨scF, scU, hscF, hscU, hrel⟩ :=
        tfidfTerms_sim idx corpus F hwf (queryTf (tokenize q)) [] []
          ⟨fun d vF h => by simp [alistGet?] at h,
           fun d vF h => by simp [alistGet?] at h,
           fun d vU h => by simp [alistGet?] at h⟩
      have hndF : (scF.map Prod.fst).Nodup :=
        tfidfTerms_nodup idx corpus F _ _ _ hscF (by simp)
      have hndU : (scU.map Prod.fst).Nodup :=
        tfidfTerms_nodup idx corpus [] _ _ _ hscU (by simp)
      simp only [searchTFIDFFull, hqe, Bool.false_eq_true, if_false, hmag, hscF] at hd
      simp only [searchTFIDFFull, hqe, Bool.false_eq_true, if_false, hmag, hscU]
      have hperm := (stableSort_perm scoreGeB
        (scF.filterMap fun dp =>
          if 0 < dp.2.2 then
            some (dp.1, Score.cos dp.2.1 dp.2.2,
              generateSnippet idx.docmeta dp.1 (tokenize q))
          else none)).map Prod.fst
      rw [hperm.mem_iff, mem_tfidf_results] at hd
      obtain ⟨s, m, hmem, hpos⟩ := hd
      have hlookF : alistGet? scF d = some (s, m) :=
        (mem_iff_lookup_of_nodup scF hndF d (s, m)).mp hmem
      obtain ⟨vU, hlookU, hle⟩ := hrel.1 d (s, m) hlookF
      have hmemU : (d, vU) ∈ scU := (mem_iff_lookup_of_nodup scU hndU d vU).mpr hlookU
      have hperm2 := (stableSort_perm scoreGeB
        (scU.filterMap fun dp =>
          if 0 < dp.2.2 then
            some (dp.1, Score.cos dp.2.1 dp.2.2,
              generateSnippet idx.docmeta dp.1 (tokenize q))
          else none)).map Prod.fst
      rw [hperm2.mem_iff, mem_tfidf_results]
      exact ⟨vU.1, vU.2, by simpa using hmemU, lt_of_lt_of_le hpos hle⟩

/-- Witness for the amended C3 theorem: the one-term demonstration index with
a time filter that d1 passes. -/
theorem c3_superset_witness :
    tokenize ("garlic") ≠ [] ∧ WFIndex demoIdx ∧
    ((∀ d, d ∈ (searchBM25Full demoIdx demoCorpus st0 ("garlic")
        [("max_total_minutes", FVal.num 60)]).1.map Prod.fst →
      d ∈ (searchBM25Full demoIdx demoCorpus st0 ("garlic") []).1.map Prod.fst) ∧
    (∀ d, d ∈ (searchTFIDFFull demoIdx demoCorpus st0 ("garlic")
        [("max_total_minutes", FVal.num 60)]).1.map Prod.fst →
      d ∈ (searchTFIDFFull demoIdx demoCorpus st0 ("garlic") []).1.map Prod.fst)) :=
  ⟨by decide, by unfold WFIndex; decide,
   c3_superset_unpaginated demoIdx demoCorpus st0 ("garlic")
     [("max_total_minutes", FVal.num 60)] (by decide) (by unfold WFIndex; decide)⟩

/-! ## Claim C4: the count-only path -/

theorem matchedAdd_mem (acc : List String) (d d' : String) :
    d' ∈ matchedAdd acc d ↔ d' ∈ acc ∨ d' = d := by
  unfold matchedAdd
  by_cases h : acc.contains d = true
  · rw [if_pos h]
    have hd : d ∈ acc := by simpa using h
    constructor
    · exact Or.inl
    · rintro (hx | hx)
      · exact hx
      · exact hx ▸ hd
  · rw [if_neg h]
    simp

theorem matchedAdd_nodup (acc : List String) (d : String) (h : acc.Nodup) :
    (matchedAdd acc d).Nodup := by
  unfold matchedAdd
  by_cases hc : acc.contains d = true
  · rw [if_pos hc]
    exact h
  · rw [if_neg hc]
    have hd : d ∉ acc := by simpa using hc
    simp [List.nodup_append, h, hd]

theorem totalPostings_chars (corpus : Corpus) (f : Filters) :
    ∀ (ps : List SPosting) (acc : List String),
      (∀ d, d ∈ totalPostings corpus f acc ps ↔
        (d ∈ acc ∨ ∃ p ∈ ps, p.docId = d ∧ applyFiltersDoc corpus d f = true)) ∧
      (acc.Nodup → (totalPostings corpus f acc ps).Nodup) := by
  intro ps
  induction ps with
  | nil =>
    intro acc
    exact ⟨fun d => by simp [totalPostings], fun h => h⟩
  | cons p ps ih =>
    intro acc
    by_cases hpred : applyFiltersDoc corpus p.docId f = true
    · have hstep : totalPostings corpus f acc (p :: ps)
          = totalPostings corpus f (matchedAdd acc p.docId) ps := by
        simp [totalPostings, hpred]
      obtain ⟨hchar, hnd⟩ := ih (matchedAdd acc p.docId)
      rw [hstep]
      constructor
      · intro d
        rw [hchar d, matchedAdd_mem]
        constructor
        · rintro ((hx | hx) | hx)
          · exact Or.inl hx
          · exact Or.inr ⟨p, by simp, hx.symm, by rw [hx]; exact hpred⟩
          · obtain ⟨p', hp', hd, hpass⟩ := hx
            exact Or.inr ⟨p', by simp [hp'], hd, hpass⟩
        · rintro (hx | hx)
          · exact Or.inl (Or.inl hx)
          · obtain ⟨p', hp', hd, hpass⟩ := hx
            rcases List.mem_cons.mp hp' with hpp | hpp
            · exact Or.inl (Or.inr (hpp ▸ hd).symm)
            · exact Or.inr ⟨p', hpp, hd, hpass⟩
      · intro hn
        exact hnd (matchedAdd_nodup _ _ hn)
    · have hpredf : applyFiltersDoc corpus p.docId f = false := by
        cases hb : applyFiltersDoc corpus p.docId f
        · rfl
        · exact absurd hb hpred
      have hstep : totalPostings corpus f acc (p :: ps)
          = totalPostings corpus f acc ps := by
        simp [totalPostings, hpredf]
      obtain ⟨hchar, hnd⟩ := ih acc
      rw [hstep]
      refine ⟨?_, hnd⟩
      intro d
      rw [hchar d]
      constructor
      · rintro (hx | hx)
        · exact Or.inl hx
        · obtain ⟨p', hp', hd, hpass⟩ := hx
          exact Or.inr ⟨p', by simp [hp'], hd, hpass⟩
      · rintro (hx | hx)
        · exact Or.inl hx
        · obtain ⟨p', hp', hd, hpass⟩ := hx
          rcases List.mem_cons.mp hp' with hpp | hpp
          · subst hpp
            subst hd
            exact absurd hpass hpred
          · exact Or.inr ⟨p', hpp, hd, hpass⟩

theorem totalMatchedGo_chars (idx : SearchIndex) (corpus : Corpus) (f : Filters) :
    ∀ (qterms : List String) (acc : List String),
      (∀ d, d ∈ qterms.foldl
          (fun acc t =>
            match alistGet? idx.postings t with
            | none => acc
            | some ps => totalPostings corpus f acc ps)
          acc ↔
        (d ∈ acc ∨ ∃ t ∈ qterms, ∃ p ∈ postingsOfS idx t,
          p.docId = d ∧ applyFiltersDoc corpus d f = true)) ∧
      (acc.Nodup → (qterms.foldl
          (fun acc t =>
            match alistGet? idx.postings t with
            | none => acc
            | some ps => totalPostings corpus f acc ps)
          acc).Nodup) := by
  intro qterms
  induction qterms with
  | nil =>
    intro acc
    exact ⟨fun d => by simp, fun h => h⟩
  | cons t rest ih =>
    intro acc
    simp only [List.foldl_cons]
    cases hterm : alistGet? idx.postings t with
    | none =>
      simp only [hterm]
      obtain ⟨hchar, hnd⟩ := ih acc
      have hps : postingsOfS idx t = [] := by simp [postingsOfS, hterm]
      refine ⟨?_, hnd⟩
      intro d
      rw [hchar d]
      constructor
      · rintro (hx | hx)
        · exact Or.inl hx
        · obtain ⟨t', ht', hrest⟩ := hx
          exact Or.inr ⟨t', by simp [ht'], hrest⟩
      · rintro (hx | hx)
        · exact Or.inl hx
        · obtain ⟨t', ht', p, hp, hrest⟩ := hx
          rcases List.mem_cons.mp ht' with htt | htt
          · subst htt
            rw [hps] at hp
            simp at hp
          · exact Or.inr ⟨t', htt, p, hp, hrest⟩
    | some ps =>
      simp only [hterm]
      obtain ⟨hchar1, hnd1⟩ := totalPostings_chars corpus f ps acc
      obtain ⟨hchar, hnd⟩ := ih (totalPostings corpus f acc ps)
      have hps : postingsOfS idx t = ps := by simp [postingsOfS, hterm]
      refine ⟨?_, fun hn => hnd (hnd1 hn)⟩
      intro d
      rw [hchar d, hchar1 d]
      constructor
      · rintro ((hx | hx) | hx)
        · exact Or.inl hx
        · obtain ⟨p, hp, hrest⟩ := hx
          exact Or.inr ⟨t, by simp, p, by rw [hps]; exact hp, hrest⟩
        · obtain ⟨t', ht', hrest⟩ := hx
          exact Or.inr ⟨t', by simp [ht'], hrest⟩
      · rintro (hx | hx)
        · exact Or.inl (Or.inl hx)
        · obtain ⟨t', ht', p, hp, hrest⟩ := hx
          rcases List.mem_cons.mp ht' with htt | htt
          · subst htt
            rw [hps] at hp
            exact Or.inl (Or.inr ⟨p, hp, hrest⟩)
          · exact Or.inr ⟨t', htt, p, hp, hrest⟩

theorem totalMatched_chars (idx : SearchIndex) (corpus : Corpus) (f : Filters)
    (qterms : List String) :
    (∀ d, d ∈ totalMatched idx corpus f qterms ↔
      ∃ t ∈ qterms, ∃ p ∈ postingsOfS idx t,
        p.docId = d ∧ applyFiltersDoc corpus d f = true) ∧
    (totalMatched idx corpus f qterms).Nodup := by
  obtain ⟨hchar, hnd⟩ := totalMatchedGo_chars idx corpus f qterms []
  unfold totalMatched
  exact ⟨fun d => (hchar d).trans (by simp), hnd List.nodup_nil⟩

theorem bumpDf_keys (acc : List (String × Nat)) (t t' : String) :
    t' ∈ (bumpDf acc t).map Prod.fst ↔ t' ∈ acc.map Prod.fst ∨ t' = t := by
  induction acc with
  | nil => simp [bumpDf]
  | cons hd tl ih =>
    obtain ⟨k, v⟩ := hd
    by_cases hk : k = t
    · subst hk
      simp [bumpDf]
      tauto
    · simp [bumpDf, hk, ih]
      tauto

theorem queryTf_keys (qterms : List String) (t : String) :
    t ∈ (queryTf qterms).map Prod.fst ↔ t ∈ qterms := by
  unfold queryTf
  suffices h : ∀ (l : List String) (acc : List (String × Nat)),
      t ∈ (l.foldl bumpDf acc).map Prod.fst ↔ t ∈ acc.map Prod.fst ∨ t ∈ l by
    simpa using h qterms []
  intro l
  induction l with
  | nil =>
    intro acc
    simp
  | cons x xs ih =>
    intro acc
    simp only [List.foldl_cons]
    rw [ih (bumpDf acc x), bumpDf_keys]
    simp only [List.mem_cons]
    tauto

theorem cacheGet?_mem (c : List (Filters × List SearchResult)) (k : Filters)
    (res : List SearchResult) (h : cacheGet? c k = some res) : (k, res) ∈ c := by
  induction c with
  | nil => simp [cacheGet?] at h
  | cons e rest ih =>
    obtain ⟨k', v⟩ := e
    by_cases hk : k' = k
    · subst hk
      have h' : v = res := by simpa [cacheGet?] using h
      subst h'
      simp
    · simp only [cacheGet?, hk, if_false] at h
      simp [ih h]

theorem filterAllDocuments_hit (idx : SearchIndex) (corpus : Corpus)
    (st : SearcherState) (f : Filters) (hne : f ≠ [])
    (res : List SearchResult)
    (h : cacheGet? st.filterCache (sortedItems f) = some res) :
    filterAllDocuments idx corpus st f = (res, st) := by
  have hE : f.isEmpty = false := by
    cases f with
    | nil => exact absurd rfl hne
    | cons a l => rfl
  simp [filterAllDocuments, hE, h]

theorem filterAllDocuments_timeOnly (idx : SearchIndex) (corpus : Corpus)
    (st : SearcherState) (f : Filters) (hne : f ≠ [])
    (hmiss : cacheGet? st.filterCache (sortedItems f) = none)
    (ht : onlyTimeFilters f = true) :
    filterAllDocuments idx corpus st f
      = (filterByTimeOnly idx corpus f,
         ⟨st.filterCache ++ [(sortedItems f, filterByTimeOnly idx corpus f)]⟩) := by
  have hE : f.isEmpty = false := by
    cases f with
    | nil => exact absurd rfl hne
    | cons a l => rfl
  simp [filterAllDocuments, hE, hmiss, ht]

theorem filterAllDocuments_scan (idx : SearchIndex) (corpus : Corpus)
    (st : SearcherState) (f : Filters) (hne : f ≠ [])
    (hmiss : cacheGet? st.filterCache (sortedItems f) = none)
    (ht : onlyTimeFilters f = false)
    (hcorpus : (corpus.map Prod.fst).Nodup)
    (hmeta : (idx.docmeta.map Prod.fst).Nodup) :
    filterAllDocuments idx corpus st f
      = (stableSort docIdLe ((specFilterScan idx corpus f).take 1000),
         ⟨st.filterCache ++
           [(sortedItems f,
             stableSort docIdLe ((specFilterScan idx corpus f).take 1000))]⟩) := by
  have hE : f.isEmpty = false := by
    cases f with
    | nil => exact absurd rfl hne
    | cons a l => rfl
  have hids : ((idx.docmeta.map Prod.fst).take 2000).Nodup :=
    (List.take_sublist _ _).nodup hmeta
  have hscan : scanChunks idx.docmeta corpus f
      (chunksOf 500 ((idx.docmeta.map Prod.fst).take 2000)) []
      = (specFilterScan idx corpus f).take 1000 := by
    rw [scanChunks_eq idx.docmeta corpus f _ [] (by simp) ?_]
    · rw [chunksOf_flatten 500 (by norm_num)]
      simp [specFilterScan]
    · intro batch hb d hd
      have hbn : batch.Nodup := (chunksOfF_sublist 500 _ _ _ hb).nodup hids
      exact loadRecipesBatch_lookup corpus batch d hcorpus hbn (by simpa using hd)
  simp only [filterAllDocuments, hE, Bool.false_eq_true, if_false, hmiss, ht]
  rw [hscan]

/-- The kept results of one time-only batch, in loaded (corpus file) order. -/
def timeMatches (docmeta : List (String × SDocMeta)) (f : Filters)
    (loaded : List (String × Recipe)) : List SearchResult :=
  (loaded.filter fun dr => checkTimeFilters dr.2 f).map
    fun dr => (dr.1, Score.val 1, generateSnippet docmeta dr.1 [])

theorem timeOnlyBatch_eq (docmeta : List (String × SDocMeta)) (corpus : Corpus)
    (f : Filters) (acc : List SearchResult) (batch : List String) :
    timeOnlyBatch docmeta corpus f acc batch
      = acc ++ timeMatches docmeta f (loadRecipesBatch corpus batch) := by
  unfold timeOnlyBatch timeMatches
  generalize loadRecipesBatch corpus batch = loaded
  induction loaded generalizing acc with
  | nil => simp
  | cons dr rest ih =>
    simp only [List.foldl_cons]
    by_cases hc : checkTimeFilters dr.2 f = true
    · have hfil : List.filter (fun dr => checkTimeFilters dr.2 f) (dr :: rest)
          = dr :: List.filter (fun dr => checkTimeFilters dr.2 f) rest := by
        simp [List.filter_cons, hc]
      rw [if_pos hc, ih, hfil, List.map_cons, List.append_assoc, List.singleton_append]
    · have hcf : checkTimeFilters dr.2 f = false := by
        cases hb : checkTimeFilters dr.2 f
        · rfl
        · exact absurd hb hc
      have hfil : List.filter (fun dr => checkTimeFilters dr.2 f) (dr :: rest)
          = List.filter (fun dr => checkTimeFilters dr.2 f) rest := by
        simp [List.filter_cons, hcf]
      rw [if_neg hc, ih, hfil]

theorem filterByTimeOnly_eq (idx : SearchIndex) (corpus : Corpus) (f : Filters) :
    filterByTimeOnly idx corpus f
      = ((chunksOf 100 (idx.docmeta.map Prod.fst)).map fun batch =>
          timeMatches idx.docmeta f (loadRecipesBatch corpus batch)).flatten := by
  unfold filterByTimeOnly
  suffices h : ∀ (chunks : List (List String)) (acc : List SearchResult),
      chunks.foldl (timeOnlyBatch idx.docmeta corpus f) acc
        = acc ++ (chunks.map fun batch =>
            timeMatches idx.docmeta f (loadRecipesBatch corpus batch)).flatten by
    simpa using h (chunksOf 100 (idx.docmeta.map Prod.fst)) []
  intro chunks
  induction chunks with
  | nil =>
    intro acc
    simp
  | cons bt rest ih =>
    intro acc
    simp only [List.foldl_cons, timeOnlyBatch_eq, ih, List.map_cons, List.flatten_cons,
      List.append_assoc]

theorem dictInsert_keys_mem {β : Type} (k : String) (v : β) (d : String) :
    ∀ l : List (String × β), d ∈ (dictInsert l k v).map Prod.fst →
      d ∈ l.map Prod.fst ∨ d = k := by
  intro l
  induction l with
  | nil =>
    intro h
    simp only [dictInsert, List.map_cons, List.map_nil] at h
    rcases List.mem_cons.mp h with hx | hx
    · exact Or.inr hx
    · exact absurd hx (List.not_mem_nil d)
  | cons e rest ih =>
    obtain ⟨k', v'⟩ := e
    intro h
    by_cases hk : k' = k
    · have hd : dictInsert ((k', v') :: rest) k v = (k', v) :: rest := by
        simp [dictInsert, hk]
      rw [hd, List.map_cons] at h
      rcases List.mem_cons.mp h with hx | hx
      · exact Or.inl (by rw [List.map_cons, hx]; exact List.mem_cons_self _ _)
      · exact Or.inl (by rw [List.map_cons]; exact List.mem_cons_of_mem _ hx)
    · have hd : dictInsert ((k', v') :: rest) k v = (k', v') :: dictInsert rest k v := by
        simp [dictInsert, hk]
      rw [hd, List.map_cons] at h
      rcases List.mem_cons.mp h with hx | hx
      · exact Or.inl (by rw [List.map_cons, hx]; exact List.mem_cons_self _ _)
      · rcases ih hx with hy | hy
        · exact Or.inl (by rw [List.map_cons]; exact List.mem_cons_of_mem _ hy)
        · exact Or.inr hy

theorem loadBatchGo_ids (ids : List String) :
    ∀ (cs : Corpus) (acc : List (String × Recipe)) (d : String),
      d ∈ (loadBatchGo ids cs acc).map Prod.fst →
      d ∈ acc.map Prod.fst ∨ d ∈ ids := by
  intro cs
  induction cs with
  | nil =>
    intro acc d h
    exact Or.inl h
  | cons e rest ih =>
    intro acc d h
    obtain ⟨i, r⟩ := e
    by_cases hm : ids.contains i = true
    · have hi : i ∈ ids := by simpa using hm
      have hstep : loadBatchGo ids ((i, r) :: rest) acc
          = if (dictInsert acc i r).length = ids.length then dictInsert acc i r
            else loadBatchGo ids rest (dictInsert acc i r) := by
        show (if ids.contains i = true then
            if (dictInsert acc i r).length = ids.length then dictInsert acc i r
            else loadBatchGo ids rest (dictInsert acc i r)
          else loadBatchGo ids rest acc) = _
        rw [if_pos hm]
      rw [hstep] at h
      by_cases hl : (dictInsert acc i r).length = ids.length
      · rw [if_pos hl] at h
        rcases dictInsert_keys_mem _ _ _ _ h with hx | hx
        · exact Or.inl hx
        · exact Or.inr (hx ▸ hi)
      · rw [if_neg hl] at h
        rcases ih _ _ h with hx | hx
        · rcases dictInsert_keys_mem _ _ _ _ hx with hy | hy
          · exact Or.inl hy
          · exact Or.inr (hy ▸ hi)
        · exact Or.inr hx
    · have hstep : loadBatchGo ids ((i, r) :: rest) acc = loadBatchGo ids rest acc := by
        show (if ids.contains i = true then
            if (dictInsert acc i r).length = ids.length then dictInsert acc i r
            else loadBatchGo ids rest (dictInsert acc i r)
          else loadBatchGo ids rest acc) = _
        rw [if_neg hm]
      rw [hstep] at h
      exact ih _ _ h

theorem loadRecipesBatch_ids_mem (corpus : Corpus) (batch : List String) (d : String)
    (h : d ∈ (loadRecipesBatch corpus batch).map Prod.fst) : d ∈ batch := by
  unfold loadRecipesBatch at h
  rcases loadBatchGo_ids batch corpus [] d h with hx | hx
  · simp at hx
  · exact hx

theorem timeMatches_ids_sublist (docmeta : List (String × SDocMeta)) (f : Filters)
    (loaded : List (String × Recipe)) :
    ((timeMatches docmeta f loaded).map Prod.fst).Sublist (loaded.map Prod.fst) := by
  induction loaded with
  | nil => simp [timeMatches]
  | cons dr rest ih =>
    by_cases hc : checkTimeFilters dr.2 f = true
    · have hM : timeMatches docmeta f (dr :: rest)
          = (dr.1, Score.val 1, generateSnippet docmeta dr.1 [])
            :: timeMatches docmeta f rest := by
        simp [timeMatches, List.filter_cons, hc]
      rw [hM, List.map_cons, List.map_cons]
      exact List.Sublist.cons₂ _ ih
    · have hcf : checkTimeFilters dr.2 f = false := by
        cases hb : checkTimeFilters dr.2 f
        · rfl
        · exact absurd hb hc
      have hM : timeMatches docmeta f (dr :: rest) = timeMatches docmeta f rest := by
        simp [timeMatches, List.filter_cons, hcf]
      rw [hM, List.map_cons]
      exact List.Sublist.cons _ ih

theorem timeMatches_ids_mem (docmeta : List (String × SDocMeta)) (f : Filters)
    (loaded : List (String × Recipe)) (d : String)
    (h : d ∈ (timeMatches docmeta f loaded).map Prod.fst) :
    d ∈ loaded.map Prod.fst :=
  (timeMatches_ids_sublist docmeta f loaded).subset h

theorem filterByTimeOnly_ids_nodup (idx : SearchIndex) (corpus : Corpus) (f : Filters)
    (hmeta : (idx.docmeta.map Prod.fst).Nodup)
    (hcorpus : (corpus.map Prod.fst).Nodup) :
    ((filterByTimeOnly idx corpus f).map Prod.fst).Nodup := by
  rw [filterByTimeOnly_eq, List.map_flatten, List.map_map]
  have hflat : (chunksOf 100 (idx.docmeta.map Prod.fst)).flatten
      = idx.docmeta.map Prod.fst := chunksOf_flatten 100 (by norm_num) _
  have hidsn : ((chunksOf 100 (idx.docmeta.map Prod.fst)).flatten).Nodup := by
    rw [hflat]
    exact hmeta
  obtain ⟨hchunk, hdisj⟩ := List.nodup_flatten.mp hidsn
  rw [List.nodup_flatten]
  constructor
  · intro s hs
    rw [List.mem_map] at hs
    obtain ⟨bt, hbt, rfl⟩ := hs
    show ((timeMatches idx.docmeta f (loadRecipesBatch corpus bt)).map Prod.fst).Nodup
    have hb : bt.Nodup := hchunk bt hbt
    have hload : ((loadRecipesBatch corpus bt).map Prod.fst).Nodup := by
      rw [loadRecipesBatch_eq corpus bt hcorpus hb]
      exact ((List.filter_sublist _).map Prod.fst).nodup hcorpus
    exact (timeMatches_ids_sublist _ _ _).nodup hload
  · rw [List.pairwise_map]
    refine hdisj.imp ?_
    intro b1 b2 hd12 x hx1 hx2
    have h1 : x ∈ b1 := loadRecipesBatch_ids_mem corpus b1 x
      (timeMatches_ids_mem _ _ _ _ hx1)
    have h2 : x ∈ b2 := loadRecipesBatch_ids_mem corpus b2 x
      (timeMatches_ids_mem _ _ _ _ hx2)
    exact hd12 h1 h2

theorem loadedMatches_ids_sublist (docmeta : List (String × SDocMeta))
    (loaded : List (String × Recipe)) (f : Filters) (ds : List String) :
    ((loadedMatches docmeta loaded f ds).map Prod.fst).Sublist ds := by
  induction ds with
  | nil => simp [loadedMatches]
  | cons d ds ih =>
    cases hget : alistGet? loaded d with
    | none =>
      have hM : loadedMatches docmeta loaded f (d :: ds)
          = loadedMatches docmeta loaded f ds := by
        simp [loadedMatches, List.filterMap_cons, hget]
      rw [hM]
      exact List.Sublist.cons _ ih
    | some r =>
      by_cases hf : applyFilters r f = true
      · have hM : loadedMatches docmeta loaded f (d :: ds)
            = (d, Score.val 1, generateSnippet docmeta d [])
              :: loadedMatches docmeta loaded f ds := by
          simp [loadedMatches, List.filterMap_cons, hget, hf]
        rw [hM, List.map_cons]
        exact List.Sublist.cons₂ _ ih
      · have hff : applyFilters r f = false := by
          cases hb : applyFilters r f
          · rfl
          · exact absurd hb hf
        have hM : loadedMatches docmeta loaded f (d :: ds)
            = loadedMatches docmeta loaded f ds := by
          simp [loadedMatches, List.filterMap_cons, hget, hff]
        rw [hM]
        exact List.Sublist.cons _ ih

theorem filterAllDocuments_ids_nodup (idx : SearchIndex) (corpus : Corpus)
    (st : SearcherState) (f : Filters)
    (hmeta : (idx.docmeta.map Prod.fst).Nodup)
    (hcorpus : (corpus.map Prod.fst).Nodup)
    (hcache : ∀ e ∈ st.filterCache, (e.2.map Prod.fst).Nodup) :
    ((filterAllDocuments idx corpus st f).1.map Prod.fst).Nodup := by
  by_cases hne : f = []
  · subst hne
    simp [filterAllDocuments]
  · cases hc : cacheGet? st.filterCache (sortedItems f) with
    | some res =>
      rw [filterAllDocuments_hit idx corpus st f hne res hc]
      exact hcache (sortedItems f, res) (cacheGet?_mem _ _ _ hc)
    | none =>
      cases ht : onlyTimeFilters f with
      | true =>
        rw [filterAllDocuments_timeOnly idx corpus st f hne hc ht]
        exact filterByTimeOnly_ids_nodup idx corpus f hmeta hcorpus
      | false =>
        rw [filterAllDocuments_scan idx corpus st f hne hc ht hcorpus hmeta]
        have hperm : ((stableSort docIdLe
            ((specFilterScan idx corpus f).take 1000)).map Prod.fst).Perm
            (((specFilterScan idx corpus f).take 1000).map Prod.fst) :=
          (stableSort_perm _ _).map Prod.fst
        rw [hperm.nodup_iff]
        have hspec : ((specFilterScan idx corpus f).map Prod.fst).Nodup :=
          (loadedMatches_ids_sublist _ _ _ _).nodup ((List.take_sublist _ _).nodup hmeta)
        rw [List.map_take]
        exact (List.take_sublist _ _).nodup hspec

/-- An index identical to the demonstration index except that the stored idf
of `garlic` is `0` (as `ln(N/df)` produces when `df = N`). -/
def zeroIdfIdx : SearchIndex :=
  ⟨[("garlic", (1, 0))], [("garlic", [⟨"title", "d1", 1⟩])], [("d1", demoMeta)]⟩

/-- Claim C4 counterexample: with the stored idf of the only query term equal
to `0`, `get_total_results("garlic")` counts one matching document while
`search_tfidf("garlic")` computes a zero query magnitude and returns no
results at any pagination, so the count-only path and the tfidf search path
disagree on the match set. -/
theorem c4_total_results_counterexample :
    (getTotalResults zeroIdfIdx demoCorpus st0 ("garlic") []).1 = 1 ∧
    (((searchTFIDFFull zeroIdfIdx demoCorpus st0 ("garlic") []).1.map
        Prod.fst).dedup).length = 0 := by
  have ht : tokenize ("garlic") = ["garlic"] := by decide
  have h2 : (searchTFIDFFull zeroIdfIdx demoCorpus st0 ("garlic") []).1 = [] := by
    simp only [searchTFIDFFull, ht]
    norm_num [qMagSq, queryTf, bumpDf, alistGet?, zeroIdfIdx]
  exact ⟨by decide, by rw [h2]; rfl⟩

/-- Claim C4 (amended): `get_total_results` agrees with the BM25 search path —
on a well-formed index whose postings keys are dictionary terms (the loader
guarantees this), with positive total stored length and duplicate-free
metadata, corpus and cached ids, the count it returns equals the number of
distinct document ids in the unpaginated `search_bm25` result list for the
same query and filters.  (For the tfidf path the equality fails: see the
counterexample.) -/
theorem c4_total_results_bm25 (idx : SearchIndex) (corpus : Corpus) (st : SearcherState)
    (q : String) (f : Filters)
    (hwf : WFIndex idx)
    (hkeys : ∀ e ∈ idx.postings, (alistGet? idx.terms e.1).isSome = true)
    (hsum : 0 < sumLens idx)
    (hmeta : (idx.docmeta.map Prod.fst).Nodup)
    (hcorpus : (corpus.map Prod.fst).Nodup)
    (hcache : ∀ e ∈ st.filterCache, (e.2.map Prod.fst).Nodup) :
    (getTotalResults idx corpus st q f).1
      = (((searchBM25Full idx corpus st q f).1.map Prod.fst).dedup).length := by
  by_cases hq : tokenize q = []
  · have hqe : (tokenize q).isEmpty = true := by rw [hq]; rfl
    by_cases hf : f = []
    · subst hf
      simp [getTotalResults, searchBM25Full, hqe]
    · have hfE : f.isEmpty = false := by
        cases f with
        | nil => exact absurd rfl hf
        | cons a l => rfl
      have hres : ((filterAllDocuments idx corpus st f).1.map Prod.fst).Nodup :=
        filterAllDocuments_ids_nodup idx corpus st f hmeta hcorpus hcache
      simp only [getTotalResults, searchBM25Full, hqe, if_true, hfE,
        Bool.false_eq_true, if_false]
      rw [List.dedup_eq_self.mpr hres, List.length_map]
  · have hqe : (tokenize q).isEmpty = false := by
      cases htk : tokenize q with
      | nil => exact absurd htk hq
      | cons a l => rfl
    have hdm : idx.docmeta ≠ [] := by
      intro hnil
      rw [sumLens, hnil] at hsum
      simp at hsum
    have htot : totalDocsS idx ≠ 0 := by
      unfold totalDocsS
      intro h0
      exact hdm (List.length_eq_zero.mp h0)
    have htotQ : (0 : ℚ) < (totalDocsS idx : ℚ) := by
      have h1 : 0 < totalDocsS idx := Nat.pos_of_ne_zero htot
      exact_mod_cast h1
    have hsumQ : (0 : ℚ) < (sumLens idx : ℚ) := by exact_mod_cast hsum
    have havg : (sumLens idx : ℚ) / (totalDocsS idx : ℚ) ≠ 0 :=
      ne_of_gt (div_pos hsumQ htotQ)
    obtain ⟨sc, hsc, hchar, hnd⟩ :=
      bm25Terms_chars idx corpus f ((sumLens idx : ℚ) / (totalDocsS idx : ℚ)) hwf
        (queryTf (tokenize q)) []
    have hndS : (sc.map Prod.fst).Nodup := hnd (by simp)
    have hfull : (searchBM25Full idx corpus st q f).1
        = stableSort scoreGeB (sc.map fun ds =>
            (ds.1, Score.val ds.2, generateSnippet idx.docmeta ds.1 (tokenize q))) := by
      simp only [searchBM25Full, hqe, Bool.false_eq_true, if_false, htot, havg, hsc]
    have hcount : (getTotalResults idx corpus st q f).1
        = (totalMatched idx corpus f (tokenize q)).length := by
      simp only [getTotalResults, hqe, Bool.false_eq_true, if_false]
    obtain ⟨hcharT, hndT⟩ := totalMatched_chars idx corpus f (tokenize q)
    have hsetEq : (totalMatched idx corpus f (tokenize q)).toFinset
        = (sc.map Prod.fst).toFinset := by
      ext d
      simp only [List.mem_toFinset]
      rw [hcharT d, hchar d]
      simp only [List.map_nil, List.not_mem_nil, false_or]
      constructor
      · rintro ⟨t, ht, p, hp, hd, hpass⟩
        have htk : t ∈ (queryTf (tokenize q)).map Prod.fst := (queryTf_keys _ t).mpr ht
        obtain ⟨tq, htq, htq1⟩ := List.mem_map.mp htk
        have hpost : alistGet? idx.postings t ≠ none := by
          intro hnone
          unfold postingsOfS at hp
          rw [hnone] at hp
          simp at hp
        obtain ⟨ps, hps⟩ := Option.ne_none_iff_exists'.mp hpost
        have hsome : (alistGet? idx.terms t).isSome = true :=
          hkeys (t, ps) (alistGet?_mem _ _ _ hps)
        refine ⟨tq, htq, ?_, p, ?_, hd, hpass⟩
        · rw [htq1]
          exact hsome
        · rw [htq1]
          exact hp
      · rintro ⟨tq, htq, hsm, p, hp, hd, hpass⟩
        have ht1 : tq.1 ∈ (queryTf (tokenize q)).map Prod.fst :=
          List.mem_map_of_mem _ htq
        exact ⟨tq.1, (queryTf_keys _ _).mp ht1, p, hp, hd, hpass⟩
    have hlen : (totalMatched idx corpus f (tokenize q)).length
        = (sc.map Prod.fst).length := by
      rw [← List.toFinset_card_of_nodup hndT, ← List.toFinset_card_of_nodup hndS, hsetEq]
    rw [hcount, hlen]
    have hmapg : ((sc.map fun ds =>
        (ds.1, Score.val ds.2, generateSnippet idx.docmeta ds.1 (tokenize q))).map Prod.fst)
        = sc.map Prod.fst := by
      rw [List.map_map]
      rfl
    have hperm : ((searchBM25Full idx corpus st q f).1.map Prod.fst).Perm
        (sc.map Prod.fst) := by
      rw [hfull, ← hmapg]
      exact (stableSort_perm _ _).map Prod.fst
    rw [(hperm.dedup).length_eq, List.dedup_eq_self.mpr hndS]

/-- Witness for the amended C4 theorem: the one-document demonstration index,
the query `garlic` and no filters. -/
theorem c4_total_results_bm25_witness :
    0 < sumLens demoIdx ∧
    (getTotalResults demoIdx demoCorpus st0 ("garlic") []).1
      = (((searchBM25Full demoIdx demoCorpus st0 ("garlic") []).1.map
          Prod.fst).dedup).length :=
  ⟨by decide,
   c4_total_results_bm25 demoIdx demoCorpus st0 ("garlic") []
     (by unfold WFIndex; decide) (by decide) (by decide) (by decide) (by decide)
     (by decide)⟩

end Recipes
